import Mathlib

/-!
# Verification of the quiz-generation and grading pipeline

Shallow embedding, over `List Char`, of the core logic of `src/app.py`
(helpers `extract_text_from_pdf`, `call_llm`, `parse_mcqs`; routes
`generate`, `join_quiz`, `submit_quiz`) and of the data model of
`src/models.py`.  Python strings are modelled as `List Char`, the
SQLite store as explicit lists of rows, and the regular expressions of
`parse_mcqs` as executable scanning functions whose behaviour mirrors
CPython `re` semantics for the concrete patterns used.
-/

namespace QuizApp

/-- ASCII decimal digit, the characters matched by the regex class `\d`
(ASCII fragment) in the patterns of `parse_mcqs`. -/
def isPyDigit (c : Char) : Bool := '0' ≤ c && c ≤ '9'

/-- The characters matched by the regex class `\s` (ASCII fragment) and
stripped by Python `str.strip`: space, tab, newline, carriage return,
vertical tab, form feed. -/
def isPySpace (c : Char) : Bool :=
  c = ' ' || c = '\t' || c = '\n' || c = '\r' || c = '\x0b' || c = '\x0c'

/-- Python `str.strip()`: drop leading and trailing whitespace. -/
def pyStrip (cs : List Char) : List Char :=
  ((cs.dropWhile isPySpace).reverse.dropWhile isPySpace).reverse

/-- After the leading `Q` of a candidate marker: scans characters that must
all be digits until a `:` is found.  `colonAfterDigits r` holds exactly when
`r` begins with zero or more digits followed by `:`. -/
def colonAfterDigits : List Char → Bool
  | [] => false
  | c :: r => if c = ':' then true else isPyDigit c && colonAfterDigits r

/-- Does the text begin with a block marker, i.e. does the regex `Q\d+:`
match at this position?  (`Q`, at least one digit, then `:`.) -/
def qMarkAt : List Char → Bool
  | 'Q' :: c :: r => isPyDigit c && colonAfterDigits r
  | _ => false

/-- Scanner for `re.split(r"\n?(?=Q\d+:)", text)` (`parse_mcqs`, first line).
`acc` holds the reversed characters of the piece being accumulated.
CPython emits a zero-width split in front of every position where `Q\d+:`
matches; when the optional `\n` is consumed the zero-width match at the
following position is still reported, so an empty piece appears between a
consumed newline and its marker. -/
def splitGo (acc : List Char) : List Char → List (List Char)
  | [] => [acc.reverse]
  | c :: rest =>
    if c = '\n' && qMarkAt rest then
      match rest with
      | q :: rest' => acc.reverse :: [] :: splitGo [q] rest'
      | [] => [acc.reverse, []]
    else if qMarkAt (c :: rest) then
      acc.reverse :: splitGo [c] rest
    else
      splitGo (c :: acc) rest

/-- `re.split(r"\n?(?=Q\d+:)", text)`: the block list of `parse_mcqs`. -/
def splitBlocks (cs : List Char) : List (List Char) := splitGo [] cs

/-- Capture `(.*)`: the rest of the current line (`.` does not match `\n`). -/
def takeLine (cs : List Char) : List Char := cs.takeWhile (· ≠ '\n')

/-- Given a text starting with a `Q\d+:` marker, the characters following the
marker (drop `Q`, the maximal digit run, and the `:`). -/
def afterQMark : List Char → List Char
  | 'Q' :: r => (r.dropWhile isPyDigit).drop 1
  | cs => cs

/-- `re.search(r"Q\d+:\s*(.*)", b)`: leftmost marker, then the capture after
skipping the maximal whitespace run (which may cross newlines). -/
def searchQ : List Char → Option (List Char)
  | [] => none
  | c :: r =>
    if qMarkAt (c :: r) then some (takeLine ((afterQMark (c :: r)).dropWhile isPySpace))
    else searchQ r

/-- Is `c` one of the letters of the regex class `[ABCD]`? -/
def isOptLetter (c : Char) : Bool := c = 'A' || c = 'B' || c = 'C' || c = 'D'

/-- One attempted match of `\n([ABCD])\.\s*(.*)` at the current position:
returns the captured letter and option text together with the remainder of
the input after the match (the match ends just before the `\n` terminating
the captured line). -/
def optAt : List Char → Option (Char × List Char × List Char)
  | c1 :: l :: c2 :: r =>
    if c1 = '\n' && isOptLetter l && c2 = '.' then
      let r' := r.dropWhile isPySpace
      some (l, takeLine r', r'.dropWhile (· ≠ '\n'))
    else none
  | _ => none

theorem length_dropWhile_le (p : Char → Bool) (l : List Char) :
    (l.dropWhile p).length ≤ l.length := by
  induction l with
  | nil => simp
  | cons c r ih =>
    rw [List.dropWhile_cons]
    cases h : p c
    · simp
    · simpa using Nat.le_succ_of_le ih

theorem optAt_rest_length {cs : List Char} {x : Char × List Char × List Char}
    (h : optAt cs = some x) : x.2.2.length + 3 ≤ cs.length := by
  match cs with
  | [] => exact absurd h (by simp [optAt])
  | [a] => exact absurd h (by simp [optAt])
  | [a, b] => exact absurd h (by simp [optAt])
  | c1 :: l :: c2 :: r =>
    rw [optAt] at h
    split at h
    · cases h
      have h1 := length_dropWhile_le isPySpace r
      have h2 := length_dropWhile_le (fun x => decide (x ≠ '\n')) (r.dropWhile isPySpace)
      simp only [List.length_cons]
      omega
    · exact absurd h (by simp)

/-- `re.findall(r"\n([ABCD])\.\s*(.*)", b)`: all non-overlapping matches in
scan order, as (letter, capture) pairs. -/
def findOpts : List Char → List (Char × List Char)
  | [] => []
  | c :: r =>
    match h : optAt (c :: r) with
    | some x => (x.1, x.2.1) :: findOpts x.2.2
    | none => findOpts r
termination_by cs => cs.length
decreasing_by
  · have := optAt_rest_length h
    simp only [List.length_cons] at *
    omega
  · simp

/-- The literal `Answer:` of the answer pattern. -/
def ansPat : List Char := ['A', 'n', 's', 'w', 'e', 'r', ':']

/-- One attempted match of `Answer:\s*([ABCD])` at the current position.
`[ABCD]` never matches whitespace, so after the literal the engine skips the
maximal whitespace run and tests the next character. -/
def ansAt (cs : List Char) : Option Char :=
  if ansPat.isPrefixOf cs then
    match (cs.drop 7).dropWhile isPySpace with
    | c :: _ => if isOptLetter c then some c else none
    | [] => none
  else none

/-- `re.search(r"Answer:\s*([ABCD])", b)`: leftmost full match; an
`Answer:` occurrence not followed by a letter is skipped and the scan
continues. -/
def searchAns : List Char → Option Char
  | [] => none
  | c :: r =>
    match ansAt (c :: r) with
    | some l => some l
    | none => searchAns r

/-- The literal `Explanation:` of the explanation pattern. -/
def expPat : List Char := ['E', 'x', 'p', 'l', 'a', 'n', 'a', 't', 'i', 'o', 'n', ':']

/-- One attempted match of `Explanation:\s*(.*)` at the current position. -/
def expAt (cs : List Char) : Option (List Char) :=
  if expPat.isPrefixOf cs then some (takeLine ((cs.drop 12).dropWhile isPySpace))
  else none

/-- `re.search(r"Explanation:\s*(.*)", b)`. -/
def searchExp : List Char → Option (List Char)
  | [] => none
  | c :: r =>
    match expAt (c :: r) with
    | some t => some t
    | none => searchExp r

/-- One parsed question record, the dict appended by `parse_mcqs`. -/
structure MCQ where
  q : List Char
  options : List (List Char)
  answer_letter : Char
  explanation : List Char
deriving DecidableEq, Repr

/-- The body of the `for b in blocks` loop of `parse_mcqs`: `none` exactly
when the `continue` guard fires (`not q or len(opts) != 4 or not ans`). -/
def parseBlock (b : List Char) : Option MCQ :=
  match searchQ b with
  | none => none
  | some qt =>
    let opts := findOpts b
    if opts.length = 4 then
      match searchAns b with
      | none => none
      | some l =>
        some { q := pyStrip qt,
               options := opts.map (fun o => pyStrip o.2),
               answer_letter := l,
               explanation := (searchExp b).elim [] pyStrip }
    else none

/-- `parse_mcqs(text)`: split into blocks, keep the blocks that validate. -/
def parse_mcqs (text : List Char) : List MCQ :=
  (splitBlocks text).filterMap parseBlock

/-! ## Data model (`src/models.py`) -/

/-- A row of the `quiz` table. -/
structure QuizRow where
  id : List Char
  time : Int
deriving DecidableEq, Repr

/-- A row of the `question` table (the autoincrement primary key is implied
by list position; `filter_by(quiz_id=...).all()` returns rows in insertion
order). -/
structure QuestionRow where
  quiz_id : List Char
  question : List Char
  options : List (List Char)
  answer_letter : List Char
  explanation : List Char
deriving DecidableEq, Repr

/-- A row of the `student` table (`score` defaults to 0, `finished` to
false). -/
structure StudentRow where
  name : List Char
  quiz_id : List Char
  score : Nat
  finished : Bool
deriving DecidableEq, Repr

/-- The persistent store: the three tables of `models.py`, each in insertion
order. -/
structure DB where
  quizzes : List QuizRow
  questions : List QuestionRow
  students : List StudentRow
deriving DecidableEq, Repr

/-! ## `generate` (`src/app.py`) : input validation and persistence -/

/-- Which branch the input guard of `generate` takes. -/
inductive GenValidation where
  | useFile
  | useParagraph
  | badRequest
deriving DecidableEq, Repr

/-- The input guard of `generate`: `if file: ... elif paragraph: ... else:
400`.  `file` models `request.files.get("pdf")` (`none` when absent) and
`paragraph` models `request.form.get("paragraph", "")` (absent gives the
empty string, which is falsy). -/
def generate_validate (file : Option (List Char)) (paragraph : List Char) : GenValidation :=
  if file.isSome then .useFile
  else if paragraph ≠ [] then .useParagraph
  else .badRequest

/-- The question rows persisted by `generate` for a parsed model response:
one `Question(...)` per record of `parse_mcqs(raw)`, in order.  The stored
`answer_letter` is the one-character string captured by the regex group. -/
def generate_questions (quiz_id : List Char) (raw : List Char) : List QuestionRow :=
  (parse_mcqs raw).map fun m =>
    { quiz_id := quiz_id,
      question := m.q,
      options := m.options,
      answer_letter := [m.answer_letter],
      explanation := m.explanation }

/-! ## `call_llm` (`src/app.py`) -/

/-- The two failure modes of `call_llm`: the `except` branch re-raising
`RuntimeError("Groq API failed")`, and the post-hoc elapsed-time check
raising `RuntimeError("Groq timeout")`.  Neither carries the provider
error detail. -/
inductive LLMError where
  | modelCallFailed
  | timeoutExceeded
deriving DecidableEq, Repr

/-- `call_llm`: the provider call is external, so it enters the model as an
oracle `result` (`Except detail text`, where `detail` is the provider
exception detail) together with the measured wall-clock `elapsed` time.
A provider error is re-signalled with the detail discarded; a successful
call is discarded when `elapsed > timeout_sec`. -/
def call_llm (result : Except (List Char) (List Char)) (elapsed timeout_sec : ℚ) :
    Except LLMError (List Char) :=
  match result with
  | .error _ => .error .modelCallFailed
  | .ok text => if elapsed > timeout_sec then .error .timeoutExceeded else .ok text

/-! ## `extract_text_from_pdf` (`src/app.py`) -/

/-- `" ".join(pages)`. -/
def joinSpace : List (List Char) → List Char
  | [] => []
  | [p] => p
  | p :: ps => p ++ ' ' :: joinSpace ps

/-- `re.sub(r"\s+", " ", text)`: every maximal whitespace run becomes one
space. -/
def collapseWs : List Char → List Char
  | [] => []
  | c :: r =>
    if isPySpace c then ' ' :: collapseWs (r.dropWhile isPySpace)
    else c :: collapseWs r
termination_by cs => cs.length
decreasing_by
  · have := length_dropWhile_le isPySpace r
    simp only [List.length_cons]
    omega
  · simp

/-- `extract_text_from_pdf(path, max_chars)`.  The document decoder
(`fitz.open` / `page.get_text`) is external: it enters the model as
`decoded`, either the per-page texts or the exception detail, which the
function propagates unhandled (there is no `try` around it).  On success:
join pages with single spaces, collapse whitespace runs, strip, truncate to
`max_chars`. -/
def extract_text_from_pdf (decoded : Except (List Char) (List (List Char)))
    (max_chars : Nat) : Except (List Char) (List Char) :=
  match decoded with
  | .error e => .error e
  | .ok pages => .ok ((pyStrip (collapseWs (joinSpace pages))).take max_chars)

/-! ## `join_quiz` (`src/app.py`) -/

/-- The three responses of `join_quiz`. -/
inductive JoinResp where
  | success
  | badRequest
  | notFound
deriving DecidableEq, Repr

/-- `join_quiz(quiz_id)` with body name `rawName` (`none` models a missing
or null `name` key; `(data.get("name") or "")` turns it into `""`).
Blank stripped name gives 400; unknown quiz gives 404; otherwise a Student
row is inserted unless one with the same (quiz_id, name) already exists. -/
def join_quiz (db : DB) (quiz_id : List Char) (rawName : Option (List Char)) :
    DB × JoinResp :=
  let name := pyStrip (rawName.getD [])
  if name = [] then (db, .badRequest)
  else if db.quizzes.all (fun z => z.id ≠ quiz_id) then (db, .notFound)
  else if db.students.any (fun s => s.quiz_id = quiz_id && s.name = name) then
    (db, .success)
  else
    ({ db with students := db.students ++ [{ name := name, quiz_id := quiz_id,
                                             score := 0, finished := false }] },
     .success)

/-! ## `submit_quiz` (`src/app.py`) : grading -/

/-- One entry of the `results` list built by the grading loop. -/
structure ResultRow where
  question : List Char
  options : List (List Char)
  selected : Option (List Char)
  correct : List Char
  isCorrect : Bool
  explanation : List Char
deriving DecidableEq, Repr

/-- `answers.get(k)` for the submitted JSON object, modelled as an
association list with unique keys. -/
def lookupAns (answers : List (List Char × List Char)) (k : List Char) :
    Option (List Char) :=
  match answers with
  | [] => none
  | p :: rest => if p.1 = k then some p.2 else lookupAns rest k

/-- `str(i)` for the 0-based ordinal of a question. -/
def strIdx (i : Nat) : List Char := (Nat.repr i).data

/-- The grading loop of `submit_quiz`, starting at index `i`: returns the
accumulated score and the `results` list.  A question is correct iff the
value submitted under `str(i)` equals the stored `answer_letter` exactly
(a missing key gives `none`, never equal). -/
def gradeFrom (answers : List (List Char × List Char)) :
    Nat → List QuestionRow → Nat × List ResultRow
  | _, [] => (0, [])
  | i, q :: qs =>
    let selected := lookupAns answers (strIdx i)
    let isC : Bool := selected = some q.answer_letter
    let rest := gradeFrom answers (i + 1) qs
    ((if isC then 1 else 0) + rest.1,
     { question := q.question, options := q.options, selected := selected,
       correct := q.answer_letter, isCorrect := isC,
       explanation := q.explanation } :: rest.2)

/-- The response body of `submit_quiz`. -/
structure SubmitResp where
  score : Nat
  total : Nat
  results : List ResultRow
deriving DecidableEq, Repr

/-- The `student.score = score; student.finished = True` update: mutate the
first row matching (quiz_id, name); if none matches, the store is
unchanged.  `filter_by(name=None)` matches no row (the column is
non-null), hence the `some` comparison. -/
def updateStudent (quiz_id : List Char) (name : Option (List Char)) (score : Nat) :
    List StudentRow → List StudentRow
  | [] => []
  | s :: rest =>
    if s.quiz_id = quiz_id && name = some s.name then
      { s with score := score, finished := true } :: rest
    else s :: updateStudent quiz_id name score rest

/-- `submit_quiz(quiz_id)` with body `name` and `answers`.  There is no
quiz-existence check: the stored questions are whatever rows carry this
`quiz_id`.  The response is always a 200 payload. -/
def submit_quiz (db : DB) (quiz_id : List Char) (name : Option (List Char))
    (answers : List (List Char × List Char)) : DB × SubmitResp :=
  let qs := db.questions.filter (fun q => q.quiz_id = quiz_id)
  let graded := gradeFrom answers 0 qs
  ({ db with students := updateStudent quiz_id name graded.1 db.students },
   { score := graded.1, total := qs.length, results := graded.2 })

/-! ## Whitespace-normalisation predicates (for the extraction contract) -/

/-- No two adjacent whitespace characters: every whitespace run has been
collapsed. -/
def wsNormalized : List Char → Bool
  | a :: b :: r => !(isPySpace a && isPySpace b) && wsNormalized (b :: r)
  | _ => true

/-- Every whitespace character is a plain space (newlines and tabs are
gone). -/
def spacesOnly (cs : List Char) : Bool := cs.all fun c => !isPySpace c || c = ' '

/-- The first character, if any, is not whitespace. -/
def noLeadWs : List Char → Bool
  | [] => true
  | c :: _ => !isPySpace c

/-- Neither the first nor the last character is whitespace: the text is
trimmed. -/
def noEdgeWs (cs : List Char) : Bool := noLeadWs cs && noLeadWs cs.reverse

/-! ## Well-formed model output (for the parser round-trip property)

A structured description of one block that follows the template of
`build_prompt`, and its rendering back to raw text.  `cleanBlock` states
the side conditions under which the block is well formed: one line per
field, no stray block marker, no stray `Answer:` / `Explanation:` literal
inside the free-text fields, each visible field has a printable
character, and the answer letter is in A-D. -/

structure GenBlock where
  num : List Char
  q : List Char
  o1 : List Char
  o2 : List Char
  o3 : List Char
  o4 : List Char
  ans : Char
  exp : List Char
deriving DecidableEq, Repr

/-- The question line `Q<num>: <q>`. -/
def qLine (b : GenBlock) : List Char := 'Q' :: b.num ++ ':' :: ' ' :: b.q

/-- An option line `<letter>. <text>`. -/
def oLine (l : Char) (t : List Char) : List Char := l :: '.' :: ' ' :: t

/-- The answer line `Answer: <letter>`. -/
def aLine (c : Char) : List Char := ansPat ++ ' ' :: [c]

/-- The explanation line `Explanation: <text>`. -/
def eLine (t : List Char) : List Char := expPat ++ ' ' :: t

/-- One rendered block: the seven lines of the template joined by
newlines. -/
def renderBlock (b : GenBlock) : List Char :=
  qLine b ++ '\n' ::
    (oLine 'A' b.o1 ++ '\n' ::
      (oLine 'B' b.o2 ++ '\n' ::
        (oLine 'C' b.o3 ++ '\n' ::
          (oLine 'D' b.o4 ++ '\n' ::
            (aLine b.ans ++ '\n' :: eLine b.exp)))))

/-- A full model output: rendered blocks joined by newlines. -/
def renderBlocks : List GenBlock → List Char
  | [] => []
  | [b] => renderBlock b
  | b :: bs => renderBlock b ++ '\n' :: renderBlocks bs

/-- No position of `cs` starts a `Q<digits>:` marker. -/
def noQMark : List Char → Bool
  | [] => true
  | c :: r => !qMarkAt (c :: r) && noQMark r

/-- No position of `cs` starts an occurrence of `pat`. -/
def noOccur (pat : List Char) : List Char → Bool
  | [] => !pat.isPrefixOf []
  | c :: r => !pat.isPrefixOf (c :: r) && noOccur pat r

/-- All characters are decimal digits. -/
def digitsOnly (cs : List Char) : Bool := cs.all isPyDigit

/-- Side conditions on a visible free-text field (question or option):
single line, no stray block marker, no stray pattern literal, at least one
printable character. -/
def cleanText (t : List Char) : Bool :=
  !t.contains '\n' && noQMark t && noOccur ansPat t && noOccur expPat t &&
    t.any fun c => !isPySpace c

/-- Well-formedness of one structured block. -/
def cleanBlock (b : GenBlock) : Bool :=
  digitsOnly b.num && !b.num.isEmpty &&
    cleanText b.q && cleanText b.o1 && cleanText b.o2 && cleanText b.o3 &&
    cleanText b.o4 && isOptLetter b.ans &&
    !b.exp.contains '\n' && noQMark b.exp

/-- The question record that a well-formed block should parse to (free-text
fields stripped, as `parse_mcqs` strips them). -/
def expectedMCQ (b : GenBlock) : MCQ :=
  { q := pyStrip b.q,
    options := [pyStrip b.o1, pyStrip b.o2, pyStrip b.o3, pyStrip b.o4],
    answer_letter := b.ans,
    explanation := pyStrip b.exp }

/-- The block list `re.split` produces for a rendered output: an empty
piece in front of the first marker, and an empty piece between every two
blocks (the zero-width match behind the consumed newline). -/
def withSeps : List GenBlock → List (List Char)
  | [] => []
  | [b] => [renderBlock b]
  | b :: bs => renderBlock b :: [] :: withSeps bs

/-! ## Concrete witness data -/

/-- A valid raw model response with a single well-formed block. -/
def rawEx : List Char :=
  ['Q', '1', ':', ' ', '2', '+', '2', '?', '\n',
   'A', '.', ' ', '3', '\n', 'B', '.', ' ', '4', '\n',
   'C', '.', ' ', '5', '\n', 'D', '.', ' ', '6', '\n',
   'A', 'n', 's', 'w', 'e', 'r', ':', ' ', 'B', '\n',
   'E', 'x', 'p', 'l', 'a', 'n', 'a', 't', 'i', 'o', 'n', ':', ' ', 'm', 'a', 't', 'h']

/-- The record `rawEx` parses to. -/
def mcqEx : MCQ :=
  { q := ['2', '+', '2', '?'],
    options := [['3'], ['4'], ['5'], ['6']],
    answer_letter := 'B',
    explanation := ['m', 'a', 't', 'h'] }

/-- A malformed block: only three option lines. -/
def badBlockEx : List Char :=
  ['Q', '1', ':', ' ', 'x', '\n',
   'A', '.', ' ', '1', '\n', 'B', '.', ' ', '2', '\n', 'C', '.', ' ', '3', '\n',
   'A', 'n', 's', 'w', 'e', 'r', ':', ' ', 'A']

/-- A small store: one quiz with one question and one student. -/
def dbEx : DB :=
  { quizzes := [{ id := ['a', 'b'], time := 5 }],
    questions := [{ quiz_id := ['a', 'b'],
                    question := ['2', '+', '2', '?'],
                    options := [['3'], ['4'], ['5'], ['6']],
                    answer_letter := ['B'],
                    explanation := ['m', 'a', 't', 'h'] }],
    students := [{ name := ['z', 'o', 'e'], quiz_id := ['a', 'b'],
                   score := 0, finished := false }] }

/-- A submitted answer map selecting `B` for question 0. -/
def ansEx : List (List Char × List Char) := [(['0'], ['B'])]

/-- Two structured well-formed blocks for the round-trip witness. -/
def blocksEx : List GenBlock :=
  [{ num := ['1'], q := ['2', '+', '2', '?'],
     o1 := ['3'], o2 := ['4'], o3 := ['5'], o4 := ['6'],
     ans := 'B', exp := ['m', 'a', 't', 'h'] },
   { num := ['2'], q := ['c', 'a', 'p', 'i', 't', 'a', 'l', '?'],
     o1 := ['x'], o2 := ['y'], o3 := ['P', 'a', 'r', 'i', 's'], o4 := ['w'],
     ans := 'C', exp := [] }]

/-! ## Grading lemmas -/

theorem gradeFrom_length (ans : List (List Char × List Char)) (i : Nat)
    (qs : List QuestionRow) : (gradeFrom ans i qs).2.length = qs.length := by
  induction qs generalizing i with
  | nil => rfl
  | cons q qs ih => simp [gradeFrom, ih]

theorem gradeFrom_score_eq_countP (ans : List (List Char × List Char)) (i : Nat)
    (qs : List QuestionRow) :
    (gradeFrom ans i qs).1 = (gradeFrom ans i qs).2.countP (·.isCorrect) := by
  induction qs generalizing i with
  | nil => rfl
  | cons q qs ih =>
    simp only [gradeFrom, List.countP_cons, ih (i + 1)]
    split <;> simp +arith

theorem gradeFrom_score_le (ans : List (List Char × List Char)) (i : Nat)
    (qs : List QuestionRow) : (gradeFrom ans i qs).1 ≤ qs.length := by
  induction qs generalizing i with
  | nil => simp [gradeFrom]
  | cons q qs ih =>
    simp only [gradeFrom, List.length_cons]
    have := ih (i + 1)
    split <;> omega

theorem gradeFrom_nil_answers (i : Nat) (qs : List QuestionRow) :
    (gradeFrom [] i qs).1 = 0 := by
  induction qs generalizing i with
  | nil => rfl
  | cons q qs ih => simp [gradeFrom, lookupAns, ih]

theorem gradeFrom_getElem? (ans : List (List Char × List Char)) (i : Nat)
    (qs : List QuestionRow) :
    ∀ (j : Nat) (q : QuestionRow), qs[j]? = some q →
      (gradeFrom ans i qs).2[j]? = some
        { question := q.question, options := q.options,
          selected := lookupAns ans (strIdx (i + j)),
          correct := q.answer_letter,
          isCorrect := decide (lookupAns ans (strIdx (i + j)) = some q.answer_letter),
          explanation := q.explanation } := by
  induction qs generalizing i with
  | nil => intro j q h; simp at h
  | cons q0 qs ih =>
    intro j q h
    cases j with
    | zero =>
      simp only [List.getElem?_cons_zero, Option.some.injEq] at h
      subst h
      simp [gradeFrom]
    | succ j' =>
      simp only [List.getElem?_cons_succ] at h
      have := ih (i + 1) j' q h
      simp only [gradeFrom, List.getElem?_cons_succ]
      rw [this]
      have harith : i + 1 + j' = i + (j' + 1) := by omega
      rw [harith]

/-- C1: For every stored ordered list of questions and every submitted
answer map, grading marks question `j` correct iff the value under key
`str(j)` equals the stored answer letter exactly (a missing key is never
correct), the returned score equals the count of correct questions, and
`total` equals the number of stored questions. -/
theorem claim_C1 (db : DB) (quiz_id : List Char) (name : Option (List Char))
    (answers : List (List Char × List Char)) :
    (submit_quiz db quiz_id name answers).2.total =
        (db.questions.filter (fun q => q.quiz_id = quiz_id)).length ∧
    (submit_quiz db quiz_id name answers).2.results.length =
        (db.questions.filter (fun q => q.quiz_id = quiz_id)).length ∧
    (∀ (j : Nat) (r : ResultRow) (q : QuestionRow),
        (submit_quiz db quiz_id name answers).2.results[j]? = some r →
        (db.questions.filter (fun q => q.quiz_id = quiz_id))[j]? = some q →
        (r.isCorrect = true ↔ lookupAns answers (strIdx j) = some q.answer_letter)) ∧
    (submit_quiz db quiz_id name answers).2.score =
        (submit_quiz db quiz_id name answers).2.results.countP (·.isCorrect) := by
  refine ⟨rfl, gradeFrom_length .., ?_, gradeFrom_score_eq_countP ..⟩
  intro j r q hr hq
  have := gradeFrom_getElem? answers 0 (db.questions.filter (fun q => q.quiz_id = quiz_id)) j q hq
  simp only [submit_quiz] at hr
  rw [this] at hr
  cases hr
  simp [Nat.zero_add]

/-- Witness for C1 at a concrete store and answer map. -/
theorem claim_C1_witness :
    ((submit_quiz dbEx ['a', 'b'] none ansEx).2.results[0]? =
        some { question := ['2', '+', '2', '?'], options := [['3'], ['4'], ['5'], ['6']],
               selected := some ['B'], correct := ['B'], isCorrect := true,
               explanation := ['m', 'a', 't', 'h'] }) ∧
    ({ quiz_id := ['a', 'b'], question := ['2', '+', '2', '?'],
       options := [['3'], ['4'], ['5'], ['6']], answer_letter := ['B'],
       explanation := ['m', 'a', 't', 'h'] } : QuestionRow).answer_letter = ['B'] ∧
    (true = true ↔ lookupAns ansEx (strIdx 0) = some ['B']) := by
  refine ⟨by decide, rfl, ?_⟩
  have h := (claim_C1 dbEx ['a', 'b'] none ansEx).2.2.1 0
    { question := ['2', '+', '2', '?'], options := [['3'], ['4'], ['5'], ['6']],
      selected := some ['B'], correct := ['B'], isCorrect := true,
      explanation := ['m', 'a', 't', 'h'] }
    { quiz_id := ['a', 'b'], question := ['2', '+', '2', '?'],
      options := [['3'], ['4'], ['5'], ['6']], answer_letter := ['B'],
      explanation := ['m', 'a', 't', 'h'] }
    (by decide) (by decide)
  simpa using h

/-- C5: the model-client call fails with the timeout error whenever the
measured elapsed time exceeds the budget even though the underlying call
succeeded; it returns the raw text only when the call succeeded within the
budget; and a provider error is re-signalled as a generic failure that
carries no detail. -/
theorem claim_C5 (result : Except (List Char) (List Char)) (elapsed timeout_sec : ℚ) :
    (∀ detail : List Char,
        call_llm (.error detail) elapsed timeout_sec = .error .modelCallFailed) ∧
    (∀ text : List Char, elapsed > timeout_sec →
        call_llm (.ok text) elapsed timeout_sec = .error .timeoutExceeded) ∧
    (∀ text : List Char, call_llm result elapsed timeout_sec = .ok text →
        result = .ok text ∧ elapsed ≤ timeout_sec) := by
  refine ⟨fun _ => rfl, fun text h => by simp [call_llm, h], fun text h => ?_⟩
  cases result with
  | error d => simp [call_llm] at h
  | ok t =>
    simp only [call_llm] at h
    split at h
    · cases h
    · cases h
      exact ⟨rfl, not_lt.mp (by assumption)⟩

/-- Witness for C5 at concrete inputs: a call that took 5 units against a
budget of 3 fails with the timeout error, and a provider error is
re-signalled without its detail. -/
theorem claim_C5_witness :
    call_llm (.ok ['h', 'i']) 5 3 = .error .timeoutExceeded ∧
    call_llm (.error ['b', 'o', 'o', 'm']) 5 3 = .error .modelCallFailed :=
  ⟨(claim_C5 (.ok ['h', 'i']) 5 3).2.1 ['h', 'i'] (by norm_num),
   (claim_C5 (.error ['b', 'o', 'o', 'm']) 5 3).1 ['b', 'o', 'o', 'm']⟩

/-- C7: the score returned by grading never exceeds the total number of
questions, and an empty submitted map scores 0. -/
theorem claim_C7 (db : DB) (quiz_id : List Char) (name : Option (List Char))
    (answers : List (List Char × List Char)) :
    (submit_quiz db quiz_id name answers).2.score ≤
        (submit_quiz db quiz_id name answers).2.total ∧
    (submit_quiz db quiz_id name []).2.score = 0 :=
  ⟨gradeFrom_score_le .., gradeFrom_nil_answers ..⟩

/-- Counterexample to C8: a request supplying BOTH a file and a non-empty
paragraph is not rejected with 400 — the file branch wins. -/
theorem claim_C8_counterexample :
    generate_validate (some ['a', '.', 'p', 'd', 'f']) ['h', 'i'] = .useFile ∧
    generate_validate (some ['a', '.', 'p', 'd', 'f']) ['h', 'i'] ≠ .badRequest := by
  exact ⟨rfl, by decide⟩

/-- C8 (amended): the generation request is rejected with 400 iff neither a
file nor a non-empty paragraph is present; when both are present the file
takes precedence and the request is not rejected. -/
theorem claim_C8_amended (file : Option (List Char)) (paragraph : List Char) :
    (generate_validate file paragraph = .badRequest ↔ file = none ∧ paragraph = []) ∧
    (∀ f p : List Char, generate_validate (some f) p = .useFile) := by
  constructor
  · cases file with
    | some f => simp [generate_validate]
    | none =>
      by_cases hp : paragraph = []
      · simp [generate_validate, hp]
      · simp [generate_validate, hp]
  · intro f p
    rfl

/-! ## Submit on an unknown quiz -/

theorem updateStudent_no_match (quiz_id : List Char) (name : Option (List Char))
    (sc : Nat) (l : List StudentRow) (h : ∀ s ∈ l, s.quiz_id ≠ quiz_id) :
    updateStudent quiz_id name sc l = l := by
  induction l with
  | nil => rfl
  | cons s rest ih =>
    have hs := h s (by simp)
    simp only [updateStudent]
    rw [if_neg (by simp [hs]), ih (fun s' hs' => h s' (by simp [hs']))]

/-- C10: a submit request naming no stored quiz does not fail with a
not-found error (the handler has no such check and always returns a 200
payload): under referential integrity of the store it returns score 0,
total 0 and an empty results list, and persists nothing. -/
theorem claim_C10 (db : DB) (quiz_id : List Char) (name : Option (List Char))
    (answers : List (List Char × List Char))
    (hq : ∀ z ∈ db.quizzes, z.id ≠ quiz_id)
    (hfkQ : ∀ q ∈ db.questions, ∃ z ∈ db.quizzes, z.id = q.quiz_id)
    (hfkS : ∀ s ∈ db.students, ∃ z ∈ db.quizzes, z.id = s.quiz_id) :
    submit_quiz db quiz_id name answers =
      (db, { score := 0, total := 0, results := [] }) := by
  have hfilter : db.questions.filter (fun q => q.quiz_id = quiz_id) = [] := by
    rw [List.filter_eq_nil_iff]
    intro q hq'
    obtain ⟨z, hz, hzid⟩ := hfkQ q hq'
    simp only [decide_eq_true_eq]
    intro h
    exact hq z hz (by rw [hzid, h])
  have hupd : updateStudent quiz_id name 0 db.students = db.students := by
    apply updateStudent_no_match
    intro s hs
    obtain ⟨z, hz, hzid⟩ := hfkS s hs
    intro h
    exact hq z hz (by rw [hzid, h])
  simp [submit_quiz, hfilter, gradeFrom, hupd]

/-- Witness for C10: submitting to an unknown quiz id on a concrete store. -/
theorem claim_C10_witness :
    submit_quiz dbEx ['z', 'z'] none ansEx =
      (dbEx, { score := 0, total := 0, results := [] }) :=
  claim_C10 dbEx ['z', 'z'] none ansEx (by decide) (by decide) (by decide)

/-! ## Join idempotence -/

/-- The Student row inserted by a successful first join. -/
def joinedRow (quiz_id name : List Char) : StudentRow :=
  { name := name, quiz_id := quiz_id, score := 0, finished := false }

theorem join_quiz_quiz_check {db : DB} {quiz_id : List Char}
    (hq : ∃ z ∈ db.quizzes, z.id = quiz_id) :
    ¬(db.quizzes.all (fun z => z.id ≠ quiz_id) = true) := by
  rw [List.all_eq_true]
  intro hall
  obtain ⟨z, hz, hzid⟩ := hq
  exact absurd hzid (by simpa using hall z hz)

theorem join_quiz_member (db : DB) (quiz_id : List Char) (rawName : Option (List Char))
    (hq : ∃ z ∈ db.quizzes, z.id = quiz_id)
    (hn : pyStrip (rawName.getD []) ≠ [])
    (hmem : db.students.any
      (fun s => s.quiz_id = quiz_id && s.name = pyStrip (rawName.getD [])) = true) :
    join_quiz db quiz_id rawName = (db, .success) := by
  simp only [join_quiz]
  rw [if_neg hn, if_neg (join_quiz_quiz_check hq), if_pos hmem]

theorem join_quiz_new (db : DB) (quiz_id : List Char) (rawName : Option (List Char))
    (hq : ∃ z ∈ db.quizzes, z.id = quiz_id)
    (hn : pyStrip (rawName.getD []) ≠ [])
    (hmem : db.students.any
      (fun s => s.quiz_id = quiz_id && s.name = pyStrip (rawName.getD [])) = false) :
    join_quiz db quiz_id rawName =
      ({ db with students :=
          db.students ++ [joinedRow quiz_id (pyStrip (rawName.getD []))] }, .success) := by
  simp only [join_quiz]
  rw [if_neg hn, if_neg (join_quiz_quiz_check hq), if_neg (by simp [hmem]), joinedRow]

/-- C6: joining an existing quiz twice with the same non-blank name returns
success both times and creates at most one Student row — in particular the
second join leaves the store unchanged. -/
theorem claim_C6 (db : DB) (quiz_id : List Char) (rawName : Option (List Char))
    (hq : ∃ z ∈ db.quizzes, z.id = quiz_id)
    (hn : pyStrip (rawName.getD []) ≠ []) :
    (join_quiz db quiz_id rawName).2 = .success ∧
    (join_quiz (join_quiz db quiz_id rawName).1 quiz_id rawName).2 = .success ∧
    (join_quiz (join_quiz db quiz_id rawName).1 quiz_id rawName).1 =
      (join_quiz db quiz_id rawName).1 ∧
    (join_quiz db quiz_id rawName).1.students.length ≤ db.students.length + 1 := by
  cases hmem : db.students.any
      (fun s => s.quiz_id = quiz_id && s.name = pyStrip (rawName.getD [])) with
  | true =>
    have h1 := join_quiz_member db quiz_id rawName hq hn hmem
    rw [h1]
    have h2 := join_quiz_member db quiz_id rawName hq hn hmem
    rw [h2]
    exact ⟨rfl, rfl, rfl, by simp⟩
  | false =>
    have h1 := join_quiz_new db quiz_id rawName hq hn hmem
    rw [h1]
    have hq' : ∃ z ∈ ({ db with students :=
        db.students ++ [joinedRow quiz_id (pyStrip (rawName.getD []))] } : DB).quizzes,
        z.id = quiz_id := hq
    have hmem' : ({ db with students :=
        db.students ++ [joinedRow quiz_id (pyStrip (rawName.getD []))] } : DB).students.any
        (fun s => s.quiz_id = quiz_id && s.name = pyStrip (rawName.getD [])) = true := by
      simp [joinedRow]
    have h2 := join_quiz_member _ quiz_id rawName hq' hn hmem'
    rw [h2]
    refine ⟨rfl, rfl, rfl, ?_⟩
    simp

/-- Witness for C6: joining a concrete quiz twice with the same name. -/
theorem claim_C6_witness :
    (join_quiz dbEx ['a', 'b'] (some ['b', 'o'])).2 = .success ∧
    (join_quiz (join_quiz dbEx ['a', 'b'] (some ['b', 'o'])).1 ['a', 'b']
        (some ['b', 'o'])).2 = .success ∧
    (join_quiz (join_quiz dbEx ['a', 'b'] (some ['b', 'o'])).1 ['a', 'b']
        (some ['b', 'o'])).1 = (join_quiz dbEx ['a', 'b'] (some ['b', 'o'])).1 ∧
    (join_quiz dbEx ['a', 'b'] (some ['b', 'o'])).1.students.length ≤
      dbEx.students.length + 1 :=
  claim_C6 dbEx ['a', 'b'] (some ['b', 'o']) (by decide) (by decide)

/-! ## Extraction: whitespace normalisation -/

theorem dropWhile_head_not (p : Char → Bool) (l : List Char) :
    ∀ c, (l.dropWhile p).head? = some c → p c = false := by
  induction l with
  | nil => intro c h; simp at h
  | cons a r ih =>
    intro c h
    rw [List.dropWhile_cons] at h
    split at h
    · exact ih c h
    · simp only [List.head?_cons, Option.some.injEq] at h
      subst h
      rename_i h'
      exact Bool.eq_false_iff.mpr h'

theorem collapseWs_spacesOnly (cs : List Char) : spacesOnly (collapseWs cs) = true := by
  induction cs using collapseWs.induct with
  | case1 => simp [collapseWs, spacesOnly]
  | case2 c r h ih =>
    rw [collapseWs, if_pos h]
    simpa [spacesOnly] using ih
  | case3 c r h ih =>
    rw [collapseWs, if_neg h]
    simp only [spacesOnly, List.all_cons, Bool.and_eq_true]
    exact ⟨by simp [Bool.eq_false_iff.mpr h], ih⟩

theorem collapseWs_head_not_space (r : List Char) :
    ∀ c, (collapseWs (r.dropWhile isPySpace)).head? = some c → isPySpace c = false := by
  intro c h
  cases hl : r.dropWhile isPySpace with
  | nil => rw [hl] at h; simp [collapseWs] at h
  | cons a t =>
    have ha : isPySpace a = false := dropWhile_head_not isPySpace r a (by rw [hl]; rfl)
    rw [hl, collapseWs, if_neg (by simp [ha])] at h
    simp only [List.head?_cons, Option.some.injEq] at h
    subst h
    exact ha

theorem wsNormalized_cons (a : Char) (l : List Char)
    (h1 : ∀ b, l.head? = some b → (isPySpace a && isPySpace b) = false)
    (h2 : wsNormalized l = true) : wsNormalized (a :: l) = true := by
  cases l with
  | nil => rfl
  | cons b r =>
    rw [wsNormalized, Bool.and_eq_true]
    exact ⟨by simp [h1 b rfl], h2⟩

theorem collapseWs_wsNormalized (cs : List Char) : wsNormalized (collapseWs cs) = true := by
  induction cs using collapseWs.induct with
  | case1 => simp [collapseWs, wsNormalized]
  | case2 c r h ih =>
    rw [collapseWs, if_pos h]
    refine wsNormalized_cons _ _ (fun b hb => ?_) ih
    simp [collapseWs_head_not_space r b hb]
  | case3 c r h ih =>
    rw [collapseWs, if_neg h]
    refine wsNormalized_cons _ _ (fun b hb => ?_) ih
    simp [Bool.eq_false_iff.mpr h]

/-- `wsNormalized` as a chain of pointwise constraints. -/
theorem wsNormalized_iff_chain (l : List Char) :
    wsNormalized l = true ↔ l.Chain' (fun a b => (isPySpace a && isPySpace b) = false) := by
  induction l with
  | nil => simp [wsNormalized]
  | cons a l ih =>
    cases l with
    | nil => simp [wsNormalized]
    | cons b r =>
      rw [wsNormalized, Bool.and_eq_true, List.chain'_cons, ← ih, Bool.not_eq_true']

theorem wsNormalized_infix {l m : List Char} (h : wsNormalized l = true)
    (hm : m <:+: l) : wsNormalized m = true := by
  rw [wsNormalized_iff_chain] at h ⊢
  exact h.infix hm

/-- `pyStrip` produces an infix of its input. -/
theorem pyStrip_infix_self (l : List Char) : pyStrip l <:+: l := by
  have h1 : l.dropWhile isPySpace <:+ l := List.dropWhile_suffix _
  have h2 : (l.dropWhile isPySpace).reverse.dropWhile isPySpace <:+
      (l.dropWhile isPySpace).reverse := List.dropWhile_suffix _
  have h3 : pyStrip l <+: l.dropWhile isPySpace := by
    rw [pyStrip]
    obtain ⟨t, ht⟩ := h2
    refine ⟨t.reverse, ?_⟩
    rw [← List.reverse_append, ht, List.reverse_reverse]
  exact h3.isInfix.trans h1.isInfix

theorem wsNormalized_pyStrip {l : List Char} (h : wsNormalized l = true) :
    wsNormalized (pyStrip l) = true :=
  wsNormalized_infix h (pyStrip_infix_self l)

theorem wsNormalized_take {l : List Char} (n : Nat) (h : wsNormalized l = true) :
    wsNormalized (l.take n) = true := by
  rw [wsNormalized_iff_chain] at h ⊢
  exact h.prefix (List.take_prefix n l)

theorem spacesOnly_of_infix {l m : List Char} (h : spacesOnly l = true)
    (hm : m <:+: l) : spacesOnly m = true := by
  rw [spacesOnly, List.all_eq_true] at h ⊢
  exact fun c hc => h c (hm.subset hc)

/-- Back-stripping keeps the first element of a list (or removes
everything). -/
theorem dropWhile_concat_last (p : Char → Bool) (u : List Char) (c : Char) :
    (u ++ [c]).dropWhile p = [] ∨ ∃ w, (u ++ [c]).dropWhile p = w ++ [c] := by
  induction u with
  | nil =>
    rw [List.nil_append, List.dropWhile]
    cases p c
    · exact Or.inr ⟨[], rfl⟩
    · exact Or.inl rfl
  | cons a u' ih =>
    rw [List.cons_append, List.dropWhile_cons]
    split
    · exact ih
    · exact Or.inr ⟨a :: u', rfl⟩

theorem noLeadWs_pyStrip (l : List Char) : noLeadWs (pyStrip l) = true := by
  rw [pyStrip]
  cases hz : l.dropWhile isPySpace with
  | nil => rfl
  | cons c t =>
    have hc : isPySpace c = false := dropWhile_head_not isPySpace l c (by rw [hz]; rfl)
    rw [List.reverse_cons]
    rcases dropWhile_concat_last isPySpace t.reverse c with h | ⟨w, h⟩
    · rw [h]; rfl
    · rw [h, List.reverse_append]
      simpa [noLeadWs] using hc

theorem noLeadWs_reverse_pyStrip (l : List Char) :
    noLeadWs (pyStrip l).reverse = true := by
  rw [pyStrip, List.reverse_reverse]
  cases hz : (l.dropWhile isPySpace).reverse.dropWhile isPySpace with
  | nil => rfl
  | cons c t =>
    have hc : isPySpace c = false :=
      dropWhile_head_not isPySpace (l.dropWhile isPySpace).reverse c (by rw [hz]; rfl)
    simpa [noLeadWs] using hc

theorem noEdgeWs_pyStrip (l : List Char) : noEdgeWs (pyStrip l) = true := by
  rw [noEdgeWs, Bool.and_eq_true]
  exact ⟨noLeadWs_pyStrip l, noLeadWs_reverse_pyStrip l⟩

/-- Counterexample to C9: a decodable document with no pages (empty
content) does NOT fail — extraction succeeds with the empty string. -/
theorem claim_C9_counterexample :
    extract_text_from_pdf (.ok []) 8000 = .ok [] := by
  simp [extract_text_from_pdf, joinSpace, collapseWs, pyStrip]

/-- C9 (amended): extraction fails exactly when the decoder fails,
propagating the decoder error; an empty decodable document succeeds with
the empty string.  On success the result is the page texts joined by
single spaces with all whitespace runs collapsed, trimmed, and
hard-truncated to the character budget: the pre-truncation text has no
adjacent whitespace pair, only plain spaces, and no leading or trailing
whitespace, and the returned text is its prefix of at most `max_chars`
characters. -/
theorem claim_C9_amended (detail : List Char) (pages : List (List Char))
    (max_chars : Nat) :
    extract_text_from_pdf (.error detail) max_chars = .error detail ∧
    extract_text_from_pdf (.ok pages) max_chars =
      .ok ((pyStrip (collapseWs (joinSpace pages))).take max_chars) ∧
    ((pyStrip (collapseWs (joinSpace pages))).take max_chars).length ≤ max_chars ∧
    wsNormalized ((pyStrip (collapseWs (joinSpace pages))).take max_chars) = true ∧
    wsNormalized (pyStrip (collapseWs (joinSpace pages))) = true ∧
    spacesOnly (pyStrip (collapseWs (joinSpace pages))) = true ∧
    noEdgeWs (pyStrip (collapseWs (joinSpace pages))) = true := by
  have hw : wsNormalized (pyStrip (collapseWs (joinSpace pages))) = true :=
    wsNormalized_pyStrip (collapseWs_wsNormalized _)
  refine ⟨rfl, rfl, ?_, wsNormalized_take _ hw, hw, ?_, noEdgeWs_pyStrip _⟩
  · simpa using List.length_take_le max_chars _
  · exact spacesOnly_of_infix (collapseWs_spacesOnly _) (pyStrip_infix_self _)

/-! ## Parser acceptance conditions -/

theorem optAt_isOptLetter {cs : List Char} {x : Char × List Char × List Char}
    (h : optAt cs = some x) : isOptLetter x.1 = true := by
  match cs with
  | [] => simp [optAt] at h
  | [a] => simp [optAt] at h
  | [a, b] => simp [optAt] at h
  | c1 :: l :: c2 :: r =>
    rw [optAt] at h
    split at h
    · cases h
      rename_i hc
      simp only [Bool.and_eq_true] at hc
      exact hc.1.2
    · cases h

theorem findOpts_letters (b : List Char) : ∀ p ∈ findOpts b, isOptLetter p.1 = true := by
  induction b using findOpts.induct with
  | case1 => simp [findOpts]
  | case2 c r x h ih =>
    rw [findOpts, h]
    intro p hp
    rcases List.mem_cons.mp hp with hp | hp
    · subst hp; exact optAt_isOptLetter h
    · exact ih p hp
  | case3 c r h ih =>
    rw [findOpts, h]
    exact ih

theorem ansAt_isOptLetter {cs : List Char} {c : Char} (h : ansAt cs = some c) :
    isOptLetter c = true := by
  rw [ansAt] at h
  split at h
  · split at h
    · split at h
      · cases h; assumption
      · cases h
    · cases h
  · cases h

theorem searchAns_isOptLetter {b : List Char} {c : Char} (h : searchAns b = some c) :
    isOptLetter c = true := by
  induction b with
  | nil => simp [searchAns] at h
  | cons a r ih =>
    rw [searchAns] at h
    cases hm : ansAt (a :: r) with
    | some l => rw [hm] at h; cases h; exact ansAt_isOptLetter hm
    | none => rw [hm] at h; exact ih h

theorem parseBlock_eq_none {b : List Char}
    (h : searchQ b = none ∨ (findOpts b).length ≠ 4 ∨ searchAns b = none) :
    parseBlock b = none := by
  rcases h with h | h | h
  · simp [parseBlock, h]
  · cases hq : searchQ b with
    | none => simp [parseBlock, hq]
    | some qt => simp [parseBlock, hq, h]
  · cases hq : searchQ b with
    | none => simp [parseBlock, hq]
    | some qt =>
      by_cases hl : (findOpts b).length = 4
      · simp [parseBlock, hq, hl, h]
      · simp [parseBlock, hq, hl]

theorem parseBlock_some {b : List Char} {m : MCQ} (h : parseBlock b = some m) :
    (searchQ b).isSome = true ∧ (findOpts b).length = 4 ∧
    searchAns b = some m.answer_letter ∧ m.options.length = 4 := by
  rw [parseBlock] at h
  cases hq : searchQ b with
  | none => rw [hq] at h; cases h
  | some qt =>
    rw [hq] at h
    simp only at h
    by_cases hl : (findOpts b).length = 4
    · rw [if_pos hl] at h
      cases ha : searchAns b with
      | none => rw [ha] at h; cases h
      | some l =>
        rw [ha] at h
        cases h
        exact ⟨by simp [hq], hl, by simp [ha], by simp [hl]⟩
    · rw [if_neg hl] at h; cases h

/-- C2: a block contributes a record only if it has a question line,
exactly four option lines with letters in A-D, and an answer line with a
letter in A-D; a block failing any of these conditions is silently mapped
to nothing (no error value exists in the parser), and dropping such a
block does not affect the records of the other blocks. -/
theorem claim_C2 (text : List Char) :
    parse_mcqs text = (splitBlocks text).filterMap parseBlock ∧
    (∀ b : List Char,
        searchQ b = none ∨ (findOpts b).length ≠ 4 ∨ searchAns b = none →
        parseBlock b = none) ∧
    (∀ (b : List Char) (m : MCQ), parseBlock b = some m →
        (searchQ b).isSome = true ∧ (findOpts b).length = 4 ∧
        searchAns b = some m.answer_letter ∧ isOptLetter m.answer_letter = true ∧
        ∀ p ∈ findOpts b, isOptLetter p.1 = true) ∧
    (∀ (bs₁ bs₂ : List (List Char)) (b : List Char), parseBlock b = none →
        (bs₁ ++ b :: bs₂).filterMap parseBlock = (bs₁ ++ bs₂).filterMap parseBlock) := by
  refine ⟨rfl, fun b h => parseBlock_eq_none h, fun b m h => ?_, fun bs₁ bs₂ b h => ?_⟩
  · obtain ⟨h1, h2, h3, _⟩ := parseBlock_some h
    exact ⟨h1, h2, h3, searchAns_isOptLetter h3, findOpts_letters b⟩
  · simp [List.filterMap_append, List.filterMap_cons, h]

/-- Witness for C2: the three-option block is rejected, the well-formed
block is accepted with its answer letter. -/
theorem claim_C2_witness :
    parseBlock badBlockEx = none ∧
    (searchQ rawEx).isSome = true ∧ (findOpts rawEx).length = 4 ∧
    searchAns rawEx = some 'B' := by
  have h1 := (claim_C2 rawEx).2.1 badBlockEx
    (Or.inr (Or.inl (by simp [findOpts, optAt, badBlockEx, isOptLetter, isPySpace, takeLine])))
  have h2 := (claim_C2 rawEx).2.2.1 rawEx mcqEx
    (by simp [parseBlock, searchQ, qMarkAt, isPyDigit, colonAfterDigits, afterQMark,
              takeLine, isPySpace, findOpts, optAt, isOptLetter, searchAns, ansAt,
              ansPat, searchExp, expAt, expPat, pyStrip, rawEx, mcqEx, List.isPrefixOf])
  exact ⟨h1, h2.1, h2.2.1, h2.2.2.1⟩

/-- C4: every Question row persisted by `generate` has exactly four option
strings and an answer key that is one of the letters A, B, C, D. -/
theorem claim_C4 (quiz_id raw : List Char) (row : QuestionRow)
    (h : row ∈ generate_questions quiz_id raw) :
    row.options.length = 4 ∧ row.answer_letter ∈ [['A'], ['B'], ['C'], ['D']] := by
  rw [generate_questions, List.mem_map] at h
  obtain ⟨m, hm, hrow⟩ := h
  rw [parse_mcqs, List.mem_filterMap] at hm
  obtain ⟨b, _, hb⟩ := hm
  obtain ⟨_, _, _, hopts⟩ := parseBlock_some hb
  have hans : isOptLetter m.answer_letter = true :=
    searchAns_isOptLetter (parseBlock_some hb).2.2.1
  subst hrow
  refine ⟨hopts, ?_⟩
  by_cases hA : m.answer_letter = 'A'
  · rw [hA]; simp
  by_cases hB : m.answer_letter = 'B'
  · rw [hB]; simp
  by_cases hC : m.answer_letter = 'C'
  · rw [hC]; simp
  by_cases hD : m.answer_letter = 'D'
  · rw [hD]; simp
  exact absurd hans (by simp [isOptLetter, hA, hB, hC, hD])

/-- Witness for C4: the question row persisted for the concrete raw
response `rawEx`. -/
theorem claim_C4_witness :
    ({ quiz_id := ['a', 'b'], question := ['2', '+', '2', '?'],
       options := [['3'], ['4'], ['5'], ['6']], answer_letter := ['B'],
       explanation := ['m', 'a', 't', 'h'] } : QuestionRow).options.length = 4 ∧
    ({ quiz_id := ['a', 'b'], question := ['2', '+', '2', '?'],
       options := [['3'], ['4'], ['5'], ['6']], answer_letter := ['B'],
       explanation := ['m', 'a', 't', 'h'] } : QuestionRow).answer_letter ∈
      [['A'], ['B'], ['C'], ['D']] :=
  claim_C4 ['a', 'b'] rawEx _
    (by simp [generate_questions, parse_mcqs, splitBlocks, splitGo, qMarkAt, isPyDigit,
              colonAfterDigits, parseBlock, searchQ, afterQMark, takeLine, isPySpace,
              findOpts, optAt, isOptLetter, searchAns, ansAt, ansPat, searchExp,
              expAt, expPat, pyStrip, rawEx, List.isPrefixOf])

/-! ## Round trip: marker occurrence analysis -/

/-- The lines of a rendered block, after the leading `Q`. -/
def blockTail (b : GenBlock) : List Char :=
  b.num ++ ':' :: ' ' :: b.q ++ '\n' ::
    (oLine 'A' b.o1 ++ '\n' ::
      (oLine 'B' b.o2 ++ '\n' ::
        (oLine 'C' b.o3 ++ '\n' ::
          (oLine 'D' b.o4 ++ '\n' ::
            (aLine b.ans ++ '\n' :: eLine b.exp)))))

/-- The raw text following a block: nothing after the last block, a newline
and the remaining blocks otherwise. -/
def sepTail : List GenBlock → List Char
  | [] => []
  | b :: bs => '\n' :: renderBlocks (b :: bs)

theorem renderBlock_eq (b : GenBlock) : renderBlock b = 'Q' :: blockTail b := by
  simp [renderBlock, blockTail, qLine, List.cons_append, List.append_assoc]

theorem renderBlocks_cons (b : GenBlock) (bs : List GenBlock) :
    renderBlocks (b :: bs) = renderBlock b ++ sepTail bs := by
  cases bs with
  | nil => simp [renderBlocks, sepTail]
  | cons b' bs' => rfl

theorem isPyDigit_ne {c d : Char} (h : isPyDigit c = true) (hd : isPyDigit d = false) :
    c ≠ d := by
  intro he
  subst he
  rw [h] at hd
  cases hd

theorem qMarkAt_cons_ne {c : Char} (t : List Char) (h : c ≠ 'Q') :
    qMarkAt (c :: t) = false := by
  rw [qMarkAt.eq_def]
  split
  · rename_i c' r heq
    injection heq with h1 _
    exact absurd h1 h
  · rfl

theorem colonAfterDigits_append_nl (ys r : List Char) :
    colonAfterDigits (ys ++ '\n' :: r) = colonAfterDigits ys := by
  induction ys with
  | nil => simp [colonAfterDigits, isPyDigit]
  | cons c ys ih =>
    rw [List.cons_append, colonAfterDigits, colonAfterDigits]
    split
    · rfl
    · rw [ih]

theorem qMarkAt_append_nl (xs r : List Char) :
    qMarkAt (xs ++ '\n' :: r) = qMarkAt xs := by
  match xs with
  | [] =>
    rw [List.nil_append, qMarkAt_cons_ne r (by decide : ('\n' : Char) ≠ 'Q')]
    rfl
  | [c] =>
    by_cases hc : c = 'Q'
    · subst hc
      show (isPyDigit '\n' && colonAfterDigits r) = qMarkAt ['Q']
      rw [show isPyDigit '\n' = false from rfl, Bool.false_and]
      rfl
    · rw [List.cons_append, List.nil_append, qMarkAt_cons_ne ('\n' :: r) hc,
        qMarkAt_cons_ne [] hc]
  | c :: d :: xs' =>
    by_cases hc : c = 'Q'
    · subst hc
      show (isPyDigit d && colonAfterDigits (xs' ++ '\n' :: r)) =
        (isPyDigit d && colonAfterDigits xs')
      rw [colonAfterDigits_append_nl]
    · simp only [List.cons_append]
      rw [qMarkAt_cons_ne (d :: (xs' ++ '\n' :: r)) hc, qMarkAt_cons_ne (d :: xs') hc]

theorem colonAfterDigits_digits (num t : List Char) (h : digitsOnly num = true) :
    colonAfterDigits (num ++ ':' :: t) = true := by
  induction num with
  | nil => simp [colonAfterDigits]
  | cons d ds ih =>
    simp only [digitsOnly, List.all_cons, Bool.and_eq_true] at h
    rw [List.cons_append, colonAfterDigits]
    split
    · rfl
    · rw [h.1, ih (by simpa [digitsOnly] using h.2)]
      rfl

theorem qMarkAt_marker (num t : List Char) (h : digitsOnly num = true) (hne : num ≠ []) :
    qMarkAt ('Q' :: num ++ ':' :: t) = true := by
  match num, hne with
  | d :: ds, _ =>
    simp only [digitsOnly, List.all_cons, Bool.and_eq_true] at h
    show (isPyDigit d && colonAfterDigits (ds ++ ':' :: t)) = true
    rw [h.1, colonAfterDigits_digits ds t (by simpa [digitsOnly] using h.2)]
    rfl

/-! ## `noQMark` composition -/

theorem noQMark_cons (c : Char) (t : List Char) (h : c ≠ 'Q') (ht : noQMark t = true) :
    noQMark (c :: t) = true := by
  simp [noQMark, qMarkAt_cons_ne t h, ht]

theorem noQMark_tail {c : Char} {t : List Char} (h : noQMark (c :: t) = true) :
    noQMark t = true := by
  simp only [noQMark, Bool.and_eq_true] at h
  exact h.2

theorem noQMark_drop (t : List Char) (h : noQMark t = true) :
    ∀ i, qMarkAt (t.drop i) = false := by
  induction t with
  | nil => intro i; simp [List.drop_nil]; rfl
  | cons c r ih =>
    intro i
    cases i with
    | zero =>
      simp only [noQMark, Bool.and_eq_true] at h
      simpa using h.1
    | succ i' => exact ih (noQMark_tail h) i'

theorem noQMark_fixed_append (u t : List Char) (hu : ∀ c ∈ u, c ≠ 'Q')
    (ht : noQMark t = true) : noQMark (u ++ t) = true := by
  induction u with
  | nil => exact ht
  | cons c u' ih =>
    exact noQMark_cons c _ (hu c (by simp)) (ih fun c' hc' => hu c' (by simp [hc']))

theorem noQMark_append_nl (x y : List Char) (hx : noQMark x = true)
    (hy : noQMark ('\n' :: y) = true) : noQMark (x ++ '\n' :: y) = true := by
  induction x with
  | nil => exact hy
  | cons c x' ih =>
    simp only [noQMark, Bool.and_eq_true] at hx
    have h0 : qMarkAt ((c :: x') ++ '\n' :: y) = false := by
      rw [qMarkAt_append_nl]
      simpa [noQMark] using hx.1
    rw [List.cons_append, noQMark, Bool.and_eq_true]
    exact ⟨by simpa using h0, ih hx.2⟩

theorem digits_ne_Q {num : List Char} (h : digitsOnly num = true) :
    ∀ c ∈ num, c ≠ 'Q' := by
  intro c hc
  rw [digitsOnly, List.all_eq_true] at h
  exact isPyDigit_ne (h c hc) (by decide)

/-! ## Round trip: pattern occurrence analysis -/

theorem prefix_through_nl {pat : List Char} (hnl : ∀ c ∈ pat, c ≠ '\n') :
    ∀ (w t : List Char), pat.isPrefixOf (w ++ '\n' :: t) = true →
      pat.isPrefixOf w = true := by
  induction pat with
  | nil => intro w t _; cases w <;> rfl
  | cons p pr ih =>
    intro w t h
    cases w with
    | nil =>
      rw [List.nil_append] at h
      simp only [List.isPrefixOf, Bool.and_eq_true, beq_iff_eq] at h
      exact absurd h.1 (hnl p (by simp))
    | cons a w' =>
      simp only [List.cons_append, List.isPrefixOf, Bool.and_eq_true] at h ⊢
      exact ⟨h.1, ih (fun c hc => hnl c (by simp [hc])) w' t h.2⟩

theorem noOccur_tail {pat : List Char} {c : Char} {t : List Char}
    (h : noOccur pat (c :: t) = true) : noOccur pat t = true := by
  simp only [noOccur, Bool.and_eq_true] at h
  exact h.2

theorem noOccur_head {pat : List Char} {c : Char} {t : List Char}
    (h : noOccur pat (c :: t) = true) : pat.isPrefixOf (c :: t) = false := by
  simp only [noOccur, Bool.and_eq_true] at h
  simpa using h.1

theorem noOccur_cons (pat : List Char) (c : Char) (t : List Char)
    (h0 : pat.isPrefixOf (c :: t) = false) (ht : noOccur pat t = true) :
    noOccur pat (c :: t) = true := by
  simp [noOccur, h0, ht]

theorem isPrefixOf_cons_ne {p : Char} (pr : List Char) {c : Char} (t : List Char)
    (hc : c ≠ p) : (p :: pr).isPrefixOf (c :: t) = false := by
  have hb : (p == c) = false := beq_eq_false_iff_ne.mpr fun h => hc h.symm
  simp [List.isPrefixOf, hb]

theorem noOccur_head_ne (p : Char) (pr : List Char) (c : Char) (t : List Char)
    (hc : c ≠ p) (ht : noOccur (p :: pr) t = true) :
    noOccur (p :: pr) (c :: t) = true :=
  noOccur_cons _ c t (isPrefixOf_cons_ne pr t hc) ht

theorem noOccur_all_ne (p : Char) (pr : List Char) (u t : List Char)
    (hu : ∀ c ∈ u, c ≠ p) (ht : noOccur (p :: pr) t = true) :
    noOccur (p :: pr) (u ++ t) = true := by
  induction u with
  | nil => exact ht
  | cons c u' ih =>
    exact noOccur_head_ne p pr c _ (hu c (by simp))
      (ih fun c' h' => hu c' (by simp [h']))

theorem noOccur_append_nl (pat x y : List Char) (hnl : ∀ c ∈ pat, c ≠ '\n')
    (hx : noOccur pat x = true) (hy : noOccur pat ('\n' :: y) = true) :
    noOccur pat (x ++ '\n' :: y) = true := by
  induction x with
  | nil => exact hy
  | cons c x' ih =>
    refine noOccur_cons pat c _ ?_ (ih (noOccur_tail hx))
    cases hp : pat.isPrefixOf (c :: (x' ++ '\n' :: y)) with
    | false => rfl
    | true =>
      have h2 : pat.isPrefixOf (c :: x') = true :=
        prefix_through_nl hnl (c :: x') y hp
      rw [noOccur_head hx] at h2
      cases h2

/-! ## Round trip: answer and explanation search on a rendered block -/

theorem ansAt_none_of_not_prefix {cs : List Char}
    (h : ansPat.isPrefixOf cs = false) : ansAt cs = none := by
  rw [ansAt, if_neg (by simp [h])]

theorem expAt_none_of_not_prefix {cs : List Char}
    (h : expPat.isPrefixOf cs = false) : expAt cs = none := by
  rw [expAt, if_neg (by simp [h])]

theorem searchAns_cons_nl (y : List Char) : searchAns ('\n' :: y) = searchAns y := by
  rw [searchAns, ansAt_none_of_not_prefix (isPrefixOf_cons_ne _ y (by decide))]

theorem searchAns_skip (u y : List Char) (hu : noOccur ansPat u = true) :
    searchAns (u ++ '\n' :: y) = searchAns y := by
  induction u with
  | nil => rw [List.nil_append, searchAns_cons_nl]
  | cons c u' ih =>
    have hp : ansPat.isPrefixOf (c :: (u' ++ '\n' :: y)) = false := by
      cases hp : ansPat.isPrefixOf (c :: (u' ++ '\n' :: y)) with
      | false => rfl
      | true =>
        have h2 : ansPat.isPrefixOf (c :: u') = true :=
          prefix_through_nl (by decide) (c :: u') y hp
        rw [noOccur_head hu] at h2
        cases h2
    rw [List.cons_append, searchAns, ansAt_none_of_not_prefix hp]
    exact ih (noOccur_tail hu)

theorem searchExp_cons_nl (y : List Char) : searchExp ('\n' :: y) = searchExp y := by
  rw [searchExp, expAt_none_of_not_prefix (isPrefixOf_cons_ne _ y (by decide))]

theorem searchExp_skip (u y : List Char) (hu : noOccur expPat u = true) :
    searchExp (u ++ '\n' :: y) = searchExp y := by
  induction u with
  | nil => rw [List.nil_append, searchExp_cons_nl]
  | cons c u' ih =>
    have hp : expPat.isPrefixOf (c :: (u' ++ '\n' :: y)) = false := by
      cases hp : expPat.isPrefixOf (c :: (u' ++ '\n' :: y)) with
      | false => rfl
      | true =>
        have h2 : expPat.isPrefixOf (c :: u') = true :=
          prefix_through_nl (by decide) (c :: u') y hp
        rw [noOccur_head hu] at h2
        cases h2
    rw [List.cons_append, searchExp, expAt_none_of_not_prefix hp]
    exact ih (noOccur_tail hu)

theorem isPrefixOf_append_self (pat r : List Char) :
    pat.isPrefixOf (pat ++ r) = true := by
  induction pat with
  | nil => cases r <;> rfl
  | cons p pr ih => simp [List.isPrefixOf, ih]

theorem isOptLetter_not_space {c : Char} (h : isOptLetter c = true) :
    isPySpace c = false := by
  by_cases hA : c = 'A'
  · subst hA; rfl
  by_cases hB : c = 'B'
  · subst hB; rfl
  by_cases hC : c = 'C'
  · subst hC; rfl
  by_cases hD : c = 'D'
  · subst hD; rfl
  exact absurd h (by simp [isOptLetter, hA, hB, hC, hD])

theorem ansAt_aLine (c : Char) (hc : isOptLetter c = true) (r : List Char) :
    ansAt (aLine c ++ r) = some c := by
  have h1 : aLine c ++ r = ansPat ++ (' ' :: c :: r) := by
    simp [aLine, List.append_assoc]
  rw [h1, ansAt, if_pos (by simp [isPrefixOf_append_self])]
  rw [show (ansPat ++ (' ' :: c :: r)).drop 7 = ' ' :: c :: r from by
    rw [show (7 : Nat) = ansPat.length from rfl, List.drop_left]]
  rw [List.dropWhile_cons, if_pos (by rfl), List.dropWhile_cons,
    if_neg (by simp [isOptLetter_not_space hc])]
  simp [hc]

theorem searchAns_of_ansAt {a : Char} {t : List Char} {l : Char}
    (h : ansAt (a :: t) = some l) : searchAns (a :: t) = some l := by
  rw [searchAns, h]

theorem expAt_eLine (t r : List Char) :
    expAt (eLine t ++ r) = some (takeLine ((t ++ r).dropWhile isPySpace)) := by
  have h1 : eLine t ++ r = expPat ++ (' ' :: (t ++ r)) := by
    simp [eLine, List.append_assoc]
  rw [h1, expAt, if_pos (by simp [isPrefixOf_append_self])]
  rw [show (expPat ++ (' ' :: (t ++ r))).drop 12 = ' ' :: (t ++ r) from by
    rw [show (12 : Nat) = expPat.length from rfl, List.drop_left]]
  rw [List.dropWhile_cons, if_pos (by rfl)]

theorem searchExp_of_expAt {a : Char} {t : List Char} {l : List Char}
    (h : expAt (a :: t) = some l) : searchExp (a :: t) = some l := by
  rw [searchExp, h]

/-! ## Round trip: question search and option scan on a rendered block -/

theorem cleanText_parts {t : List Char} (h : cleanText t = true) :
    '\n' ∉ t ∧ noQMark t = true ∧ noOccur ansPat t = true ∧
    noOccur expPat t = true ∧ t.any (fun c => !isPySpace c) = true := by
  simp only [cleanText, Bool.and_eq_true] at h
  exact ⟨by simpa using h.1.1.1.1, h.1.1.1.2, h.1.1.2, h.1.2, h.2⟩

theorem cleanBlock_parts {b : GenBlock} (h : cleanBlock b = true) :
    digitsOnly b.num = true ∧ b.num ≠ [] ∧ cleanText b.q = true ∧
    cleanText b.o1 = true ∧ cleanText b.o2 = true ∧ cleanText b.o3 = true ∧
    cleanText b.o4 = true ∧ isOptLetter b.ans = true ∧
    '\n' ∉ b.exp ∧ noQMark b.exp = true := by
  simp only [cleanBlock, Bool.and_eq_true] at h
  obtain ⟨⟨⟨⟨⟨⟨⟨⟨⟨h1, h2⟩, h3⟩, h4⟩, h5⟩, h6⟩, h7⟩, h8⟩, h9⟩, h10⟩ := h
  exact ⟨h1, by simpa using h2, h3, h4, h5, h6, h7, h8, by simpa using h9, h10⟩

theorem isOptLetter_ne {c d : Char} (h : isOptLetter c = true)
    (hd : isOptLetter d = false) : c ≠ d := by
  intro he
  subst he
  rw [h] at hd
  cases hd

theorem not_mem_dropWhile (p : Char → Bool) {c : Char} {u : List Char} (h : c ∉ u) :
    c ∉ u.dropWhile p :=
  fun hc => h ((List.dropWhile_suffix p).subset hc)

theorem dropWhile_digits (num t : List Char) (h : digitsOnly num = true) :
    (num ++ ':' :: t).dropWhile isPyDigit = ':' :: t := by
  induction num with
  | nil => rw [List.nil_append, List.dropWhile_cons, if_neg (by decide)]
  | cons d ds ih =>
    simp only [digitsOnly, List.all_cons, Bool.and_eq_true] at h
    rw [List.cons_append, List.dropWhile_cons, if_pos (by simp [h.1])]
    exact ih (by simpa [digitsOnly] using h.2)

theorem dropWhile_ws_append (q t : List Char)
    (h : q.any (fun c => !isPySpace c) = true) :
    (q ++ t).dropWhile isPySpace = q.dropWhile isPySpace ++ t := by
  induction q with
  | nil => simp at h
  | cons c q' ih =>
    rw [List.cons_append, List.dropWhile_cons, List.dropWhile_cons]
    cases hc : isPySpace c with
    | true =>
      rw [if_pos (by simp [hc]), if_pos (by simp [hc])]
      apply ih
      simpa [List.any_cons, hc] using h
    | false =>
      rw [if_neg (by simp [hc]), if_neg (by simp [hc]), List.cons_append]

theorem takeLine_cons (c : Char) (t : List Char) (hc : c ≠ '\n') :
    takeLine (c :: t) = c :: takeLine t := by
  rw [takeLine, takeLine, List.takeWhile_cons, if_pos (by simp [hc])]

theorem takeLine_nl (t : List Char) : takeLine ('\n' :: t) = [] := by
  rw [takeLine, List.takeWhile_cons, if_neg (by simp)]

theorem takeLine_append_nl (u t : List Char) (h : '\n' ∉ u) :
    takeLine (u ++ '\n' :: t) = u := by
  induction u with
  | nil => rw [List.nil_append, takeLine_nl]
  | cons c u' ih =>
    rw [List.cons_append, takeLine_cons c _ (fun he => h (by simp [he])),
      ih fun hm => h (by simp [hm])]

theorem dropWhile_ne_nl_append (u t : List Char) (h : '\n' ∉ u) :
    (u ++ '\n' :: t).dropWhile (fun x => decide (x ≠ '\n')) = '\n' :: t := by
  induction u with
  | nil => rw [List.nil_append, List.dropWhile_cons, if_neg (by simp)]
  | cons c u' ih =>
    have hc : c ≠ '\n' := fun he => h (by simp [he])
    rw [List.cons_append, List.dropWhile_cons, if_pos (by simpa using hc)]
    exact ih fun hm => h (by simp [hm])

theorem searchQ_render (b : GenBlock) (hnum : digitsOnly b.num = true)
    (hne : b.num ≠ []) (hq1 : '\n' ∉ b.q)
    (hq2 : b.q.any (fun c => !isPySpace c) = true) :
    searchQ (renderBlock b) = some (b.q.dropWhile isPySpace) := by
  rw [renderBlock_eq]
  rw [searchQ]
  rw [if_pos (by
    rw [show ('Q' :: blockTail b) = 'Q' :: b.num ++ ':' ::
      (' ' :: (b.q ++ '\n' :: (oLine 'A' b.o1 ++ '\n' :: (oLine 'B' b.o2 ++ '\n' ::
        (oLine 'C' b.o3 ++ '\n' :: (oLine 'D' b.o4 ++ '\n' ::
          (aLine b.ans ++ '\n' :: eLine b.exp))))))) from by
      simp [blockTail, List.append_assoc]]
    simpa using qMarkAt_marker b.num _ hnum hne)]
  rw [show afterQMark ('Q' :: blockTail b) =
    ((blockTail b).dropWhile isPyDigit).drop 1 from by rw [afterQMark]]
  rw [show (blockTail b).dropWhile isPyDigit = ':' :: ' ' ::
    (b.q ++ '\n' :: (oLine 'A' b.o1 ++ '\n' :: (oLine 'B' b.o2 ++ '\n' ::
      (oLine 'C' b.o3 ++ '\n' :: (oLine 'D' b.o4 ++ '\n' ::
        (aLine b.ans ++ '\n' :: eLine b.exp)))))) from by
    rw [blockTail]
    simp only [List.cons_append, List.append_assoc]
    exact dropWhile_digits b.num _ hnum]
  rw [List.drop_succ_cons, List.drop_zero, List.dropWhile_cons, if_pos (by rfl)]
  rw [dropWhile_ws_append b.q _ hq2]
  rw [takeLine_append_nl _ _ (not_mem_dropWhile isPySpace hq1)]

theorem optAt_cons_ne {c : Char} (t : List Char) (h : c ≠ '\n') :
    optAt (c :: t) = none := by
  match t with
  | [] => rfl
  | [a] => rfl
  | a :: b :: t' =>
    rw [optAt, if_neg (by simp [h])]

theorem findOpts_nil : findOpts [] = [] := by
  rw [findOpts]

theorem findOpts_cons_none {c : Char} {t : List Char} (h : optAt (c :: t) = none) :
    findOpts (c :: t) = findOpts t := by
  rw [findOpts, h]

theorem findOpts_skip_nonl (u r : List Char) (h : '\n' ∉ u) :
    findOpts (u ++ r) = findOpts r := by
  induction u with
  | nil => rw [List.nil_append]
  | cons c u' ih =>
    rw [List.cons_append,
      findOpts_cons_none (optAt_cons_ne _ fun he => h (by simp [he]))]
    exact ih fun hm => h (by simp [hm])

theorem findOpts_nonl (u : List Char) (h : '\n' ∉ u) : findOpts u = [] := by
  have h2 := findOpts_skip_nonl u [] h
  rw [List.append_nil] at h2
  rw [h2, findOpts_nil]

theorem findOpts_optLine (l : Char) (hl : isOptLetter l = true) (t rest : List Char)
    (ht : '\n' ∉ t) (hany : t.any (fun c => !isPySpace c) = true) :
    findOpts ('\n' :: (oLine l t ++ '\n' :: rest)) =
      (l, t.dropWhile isPySpace) :: findOpts ('\n' :: rest) := by
  have hshape : '\n' :: (oLine l t ++ '\n' :: rest) =
      '\n' :: l :: '.' :: (' ' :: (t ++ '\n' :: rest)) := by
    simp [oLine]
  rw [hshape]
  have hopt : optAt ('\n' :: l :: '.' :: (' ' :: (t ++ '\n' :: rest))) =
      some (l, t.dropWhile isPySpace, '\n' :: rest) := by
    rw [optAt, if_pos (by simp [hl])]
    show some (l, takeLine ((' ' :: (t ++ '\n' :: rest)).dropWhile isPySpace),
      ((' ' :: (t ++ '\n' :: rest)).dropWhile isPySpace).dropWhile
        (fun x => decide (x ≠ '\n'))) = _
    rw [List.dropWhile_cons, if_pos (by rfl), dropWhile_ws_append t _ hany,
      takeLine_append_nl _ _ (not_mem_dropWhile isPySpace ht),
      dropWhile_ne_nl_append _ _ (not_mem_dropWhile isPySpace ht)]
  rw [findOpts, hopt]

theorem not_mem_aLine (c : Char) (hc : isOptLetter c = true) : '\n' ∉ aLine c := by
  intro hm
  rw [aLine] at hm
  rcases List.mem_append.mp hm with hm | hm
  · simp [ansPat] at hm
  · rcases List.mem_cons.mp hm with hm | hm
    · cases hm
    · rcases List.mem_cons.mp hm with hm | hm
      · exact isOptLetter_ne hc (by decide) hm.symm
      · simp at hm

theorem findOpts_ansExp (c : Char) (hc : isOptLetter c = true) (e : List Char)
    (he : '\n' ∉ e) :
    findOpts ('\n' :: (aLine c ++ '\n' :: eLine e)) = [] := by
  have h0 : optAt ('\n' :: (aLine c ++ '\n' :: eLine e)) = none := by
    have hshape : '\n' :: (aLine c ++ '\n' :: eLine e) =
        '\n' :: 'A' :: 'n' :: (['s', 'w', 'e', 'r', ':', ' ', c] ++ '\n' :: eLine e) := by
      simp [aLine, ansPat]
    rw [hshape, optAt, if_neg (by simp)]
  rw [findOpts_cons_none h0]
  rw [show aLine c ++ '\n' :: eLine e = aLine c ++ ('\n' :: eLine e) from rfl]
  rw [findOpts_skip_nonl (aLine c) _ (not_mem_aLine c hc)]
  have h1 : optAt ('\n' :: eLine e) = none := by
    have hshape : '\n' :: eLine e =
        '\n' :: 'E' :: 'x' ::
          (['p', 'l', 'a', 'n', 'a', 't', 'i', 'o', 'n', ':', ' '] ++ e) := by
      simp [eLine, expPat]
    rw [hshape, optAt, if_neg (by simp [isOptLetter])]
  rw [findOpts_cons_none h1]
  refine findOpts_nonl _ ?_
  intro hm
  rw [eLine] at hm
  rcases List.mem_append.mp hm with hm | hm
  · simp [expPat] at hm
  · rcases List.mem_cons.mp hm with hm | hm
    · cases hm
    · exact he hm

theorem findOpts_render (b : GenBlock) (h : cleanBlock b = true) :
    findOpts (renderBlock b) =
      [('A', b.o1.dropWhile isPySpace), ('B', b.o2.dropWhile isPySpace),
       ('C', b.o3.dropWhile isPySpace), ('D', b.o4.dropWhile isPySpace)] := by
  obtain ⟨hnum, hne, hq, h1, h2, h3, h4, hans, he1, he2⟩ := cleanBlock_parts h
  obtain ⟨hq1, _, _, _, hq2⟩ := cleanText_parts hq
  obtain ⟨h11, _, _, _, h12⟩ := cleanText_parts h1
  obtain ⟨h21, _, _, _, h22⟩ := cleanText_parts h2
  obtain ⟨h31, _, _, _, h32⟩ := cleanText_parts h3
  obtain ⟨h41, _, _, _, h42⟩ := cleanText_parts h4
  have hqline : '\n' ∉ qLine b := by
    intro hm
    rw [qLine] at hm
    rcases List.mem_append.mp hm with hm | hm
    · rcases List.mem_cons.mp hm with hm | hm
      · cases hm
      · rw [digitsOnly, List.all_eq_true] at hnum
        exact absurd rfl (isPyDigit_ne (hnum _ hm) (by decide))
    · rcases List.mem_cons.mp hm with hm | hm
      · cases hm
      · rcases List.mem_cons.mp hm with hm | hm
        · cases hm
        · exact hq1 hm
  rw [renderBlock]
  rw [findOpts_skip_nonl (qLine b) _ hqline]
  rw [findOpts_optLine 'A' (by decide) b.o1 _ h11 h12]
  rw [findOpts_optLine 'B' (by decide) b.o2 _ h21 h22]
  rw [findOpts_optLine 'C' (by decide) b.o3 _ h31 h32]
  rw [findOpts_optLine 'D' (by decide) b.o4 _ h41 h42]
  rw [findOpts_ansExp b.ans hans b.exp he1]

/-! ## Round trip: answer and explanation on a rendered block -/

theorem ansPat_cons : ansPat = 'A' :: ['n', 's', 'w', 'e', 'r', ':'] := rfl

theorem expPat_cons :
    expPat = 'E' :: ['x', 'p', 'l', 'a', 'n', 'a', 't', 'i', 'o', 'n', ':'] := rfl

theorem isPrefixOf_cons_cons_ne (p q : Char) (pr : List Char) (c : Char)
    (t : List Char) (h : c ≠ q) :
    (p :: q :: pr).isPrefixOf (p :: c :: t) = false := by
  have hb : (q == c) = false := beq_eq_false_iff_ne.mpr fun he => h he.symm
  simp [List.isPrefixOf, hb]

theorem noOccur_nil_of_cons (p : Char) (pr : List Char) :
    noOccur (p :: pr) [] = true := by
  rw [noOccur]
  rfl

theorem noOccur_qLine (pat : List Char) (p : Char) (pr : List Char)
    (hpat : pat = p :: pr) (hQ : ('Q' : Char) ≠ p) (hD : isPyDigit p = false)
    (hc : (':' : Char) ≠ p) (hs : (' ' : Char) ≠ p)
    (b : GenBlock) (hnum : digitsOnly b.num = true)
    (ht : noOccur pat b.q = true) : noOccur pat (qLine b) = true := by
  subst hpat
  rw [qLine]
  refine noOccur_all_ne p pr ('Q' :: b.num) _ ?_ ?_
  · intro c hcm
    rcases List.mem_cons.mp hcm with hcm | hcm
    · subst hcm; exact hQ
    · rw [digitsOnly, List.all_eq_true] at hnum
      exact isPyDigit_ne (hnum _ hcm) hD
  · exact noOccur_head_ne p pr _ _ hc (noOccur_head_ne p pr _ _ hs ht)

theorem noOccur_ans_oLine (l : Char) (t : List Char)
    (ht : noOccur ansPat t = true) : noOccur ansPat (oLine l t) = true := by
  rw [oLine]
  refine noOccur_cons _ _ _ ?_ ?_
  · by_cases hl : l = 'A'
    · subst hl
      exact isPrefixOf_cons_cons_ne 'A' 'n' _ '.' _ (by decide)
    · rw [ansPat_cons]
      exact isPrefixOf_cons_ne _ _ hl
  · rw [ansPat_cons]
    refine noOccur_head_ne _ _ _ _ (by decide) (noOccur_head_ne _ _ _ _ (by decide) ?_)
    rw [← ansPat_cons]
    exact ht

theorem noOccur_exp_oLine (l : Char) (hl : isOptLetter l = true) (t : List Char)
    (ht : noOccur expPat t = true) : noOccur expPat (oLine l t) = true := by
  rw [oLine, expPat_cons]
  refine noOccur_head_ne _ _ _ _ (isOptLetter_ne hl (by decide)) ?_
  refine noOccur_head_ne _ _ _ _ (by decide) (noOccur_head_ne _ _ _ _ (by decide) ?_)
  rw [← expPat_cons]
  exact ht

theorem noOccur_exp_aLine (c : Char) (hc : isOptLetter c = true) :
    noOccur expPat (aLine c) = true := by
  have h0 : aLine c = ('A' :: ['n', 's', 'w', 'e', 'r', ':', ' ', c]) ++ [] := by
    simp [aLine, ansPat]
  rw [h0, expPat_cons]
  refine noOccur_all_ne 'E' _ _ _ ?_ (noOccur_nil_of_cons _ _)
  intro x hx
  rcases List.mem_cons.mp hx with hx | hx
  · subst hx; decide
  · rcases List.mem_cons.mp hx with hx | hx
    · subst hx; decide
    · rcases List.mem_cons.mp hx with hx | hx
      · subst hx; decide
      · rcases List.mem_cons.mp hx with hx | hx
        · subst hx; decide
        · rcases List.mem_cons.mp hx with hx | hx
          · subst hx; decide
          · rcases List.mem_cons.mp hx with hx | hx
            · subst hx; decide
            · rcases List.mem_cons.mp hx with hx | hx
              · subst hx; decide
              · rcases List.mem_cons.mp hx with hx | hx
                · subst hx; decide
                · rcases List.mem_cons.mp hx with hx | hx
                  · subst hx; exact isOptLetter_ne hc (by decide)
                  · simp at hx

theorem aLine_cons (c : Char) (r : List Char) :
    aLine c ++ r = 'A' :: ('n' :: 's' :: 'w' :: 'e' :: 'r' :: ':' :: ' ' :: c :: r) := by
  simp [aLine, ansPat]

theorem eLine_append (t r : List Char) :
    eLine t ++ r = 'E' :: ('x' :: 'p' :: 'l' :: 'a' :: 'n' :: 'a' :: 't' :: 'i' ::
      'o' :: 'n' :: ':' :: ' ' :: (t ++ r)) := by
  simp [eLine, expPat]

theorem searchAns_render (b : GenBlock) (h : cleanBlock b = true) :
    searchAns (renderBlock b) = some b.ans := by
  obtain ⟨hnum, hne, hq, h1, h2, h3, h4, hans, he1, he2⟩ := cleanBlock_parts h
  rw [renderBlock]
  rw [searchAns_skip (qLine b) _
    (noOccur_qLine ansPat 'A' _ ansPat_cons (by decide) (by decide) (by decide)
      (by decide) b hnum (cleanText_parts hq).2.2.1)]
  rw [searchAns_skip (oLine 'A' b.o1) _
    (noOccur_ans_oLine 'A' b.o1 (cleanText_parts h1).2.2.1)]
  rw [searchAns_skip (oLine 'B' b.o2) _
    (noOccur_ans_oLine 'B' b.o2 (cleanText_parts h2).2.2.1)]
  rw [searchAns_skip (oLine 'C' b.o3) _
    (noOccur_ans_oLine 'C' b.o3 (cleanText_parts h3).2.2.1)]
  rw [searchAns_skip (oLine 'D' b.o4) _
    (noOccur_ans_oLine 'D' b.o4 (cleanText_parts h4).2.2.1)]
  have hA := ansAt_aLine b.ans hans ('\n' :: eLine b.exp)
  rw [aLine_cons] at hA
  rw [aLine_cons]
  exact searchAns_of_ansAt hA

theorem takeLine_nonl (u : List Char) (h : '\n' ∉ u) : takeLine u = u := by
  induction u with
  | nil => rfl
  | cons c u' ih =>
    rw [takeLine_cons c u' (fun he => h (by simp [he])), ih fun hm => h (by simp [hm])]

theorem searchExp_render (b : GenBlock) (h : cleanBlock b = true) :
    searchExp (renderBlock b) = some (b.exp.dropWhile isPySpace) := by
  obtain ⟨hnum, hne, hq, h1, h2, h3, h4, hans, he1, he2⟩ := cleanBlock_parts h
  rw [renderBlock]
  rw [searchExp_skip (qLine b) _
    (noOccur_qLine expPat 'E' _ expPat_cons (by decide) (by decide) (by decide)
      (by decide) b hnum (cleanText_parts hq).2.2.2.1)]
  rw [searchExp_skip (oLine 'A' b.o1) _
    (noOccur_exp_oLine 'A' (by decide) b.o1 (cleanText_parts h1).2.2.2.1)]
  rw [searchExp_skip (oLine 'B' b.o2) _
    (noOccur_exp_oLine 'B' (by decide) b.o2 (cleanText_parts h2).2.2.2.1)]
  rw [searchExp_skip (oLine 'C' b.o3) _
    (noOccur_exp_oLine 'C' (by decide) b.o3 (cleanText_parts h3).2.2.2.1)]
  rw [searchExp_skip (oLine 'D' b.o4) _
    (noOccur_exp_oLine 'D' (by decide) b.o4 (cleanText_parts h4).2.2.2.1)]
  rw [searchExp_skip (aLine b.ans) _ (noOccur_exp_aLine b.ans hans)]
  have hE := expAt_eLine b.exp []
  rw [List.append_nil, List.append_nil] at hE
  rw [takeLine_nonl _ (not_mem_dropWhile isPySpace he1)] at hE
  have h0 : eLine b.exp = eLine b.exp ++ [] := by rw [List.append_nil]
  rw [h0, eLine_append] at hE ⊢
  exact searchExp_of_expAt hE

theorem dropWhile_dropWhile (p : Char → Bool) (l : List Char) :
    (l.dropWhile p).dropWhile p = l.dropWhile p := by
  cases hl : l.dropWhile p with
  | nil => rfl
  | cons c t =>
    have hc := dropWhile_head_not p l c (by rw [hl]; rfl)
    rw [List.dropWhile_cons, if_neg (by simp [hc])]

theorem pyStrip_dropWhile (l : List Char) :
    pyStrip (l.dropWhile isPySpace) = pyStrip l := by
  rw [pyStrip, pyStrip, dropWhile_dropWhile]

theorem parseBlock_render (b : GenBlock) (h : cleanBlock b = true) :
    parseBlock (renderBlock b) = some (expectedMCQ b) := by
  obtain ⟨hnum, hne, hq, h1, h2, h3, h4, hans, he1, he2⟩ := cleanBlock_parts h
  obtain ⟨hq1, _, _, _, hq2⟩ := cleanText_parts hq
  rw [parseBlock, searchQ_render b hnum hne hq1 hq2]
  simp only [findOpts_render b h, searchAns_render b h, searchExp_render b h,
    List.length_cons, List.length_nil, List.map_cons, List.map_nil, if_pos,
    Option.elim_some]
  rw [expectedMCQ]
  simp [pyStrip_dropWhile]

/-! ## Round trip: block splitting of a rendered output -/

theorem splitGo_step_none (acc : List Char) (c : Char) (rest : List Char)
    (h1 : (c = '\n' && qMarkAt rest) = false) (h2 : qMarkAt (c :: rest) = false) :
    splitGo acc (c :: rest) = splitGo (c :: acc) rest := by
  conv_lhs => rw [splitGo.eq_def]
  simp [h1, h2]

theorem splitGo_step_mark (acc : List Char) (c : Char) (rest : List Char)
    (h1 : (c = '\n' && qMarkAt rest) = false) (h2 : qMarkAt (c :: rest) = true) :
    splitGo acc (c :: rest) = acc.reverse :: splitGo [c] rest := by
  conv_lhs => rw [splitGo.eq_def]
  simp [h1, h2]

theorem splitGo_step_nl (acc : List Char) (q : Char) (rest' : List Char)
    (h1 : qMarkAt (q :: rest') = true) :
    splitGo acc ('\n' :: q :: rest') = acc.reverse :: [] :: splitGo [q] rest' := by
  conv_lhs => rw [splitGo.eq_def]
  simp [h1]

theorem splitGo_append (u : List Char) (acc r : List Char)
    (h : ∀ i, qMarkAt (u.drop i ++ r) = false) :
    splitGo acc (u ++ r) = splitGo (u.reverse ++ acc) r := by
  induction u generalizing acc with
  | nil => simp
  | cons c u' ih =>
    have h1 : qMarkAt (u' ++ r) = false := h 1
    have h0 : qMarkAt (c :: (u' ++ r)) = false := by
      have := h 0
      rw [List.drop_zero, List.cons_append] at this
      exact this
    rw [List.cons_append, splitGo_step_none acc c _ (by simp [h1]) h0]
    rw [ih (c :: acc) fun i => h (i + 1)]
    rw [List.reverse_cons, List.append_assoc]
    rfl

theorem blockTail_eq (b : GenBlock) : blockTail b =
    b.num ++ ':' :: ((' ' :: b.q) ++ '\n' :: (oLine 'A' b.o1 ++ '\n' ::
      (oLine 'B' b.o2 ++ '\n' :: (oLine 'C' b.o3 ++ '\n' :: (oLine 'D' b.o4 ++ '\n' ::
        (aLine b.ans ++ '\n' :: eLine b.exp)))))) := by
  rw [blockTail]
  simp [List.cons_append, List.append_assoc]

theorem qMarkAt_renderBlock_append (b : GenBlock) (r : List Char)
    (hnum : digitsOnly b.num = true) (hne : b.num ≠ []) :
    qMarkAt (renderBlock b ++ r) = true := by
  rw [renderBlock_eq, blockTail_eq, List.cons_append]
  rw [show (b.num ++ ':' :: ((' ' :: b.q) ++ '\n' :: (oLine 'A' b.o1 ++ '\n' ::
      (oLine 'B' b.o2 ++ '\n' :: (oLine 'C' b.o3 ++ '\n' :: (oLine 'D' b.o4 ++ '\n' ::
        (aLine b.ans ++ '\n' :: eLine b.exp))))))) ++ r =
    b.num ++ ':' :: (((' ' :: b.q) ++ '\n' :: (oLine 'A' b.o1 ++ '\n' ::
      (oLine 'B' b.o2 ++ '\n' :: (oLine 'C' b.o3 ++ '\n' :: (oLine 'D' b.o4 ++ '\n' ::
        (aLine b.ans ++ '\n' :: eLine b.exp)))))) ++ r) from by
    simp [List.append_assoc]]
  exact qMarkAt_marker _ _ hnum hne

theorem noQMark_aLine (c : Char) (hc : isOptLetter c = true) :
    noQMark (aLine c) = true := by
  have h0 : aLine c = (ansPat ++ [' ']) ++ [c] := by
    simp [aLine]
  rw [h0]
  refine noQMark_fixed_append _ _ (by decide) ?_
  exact noQMark_cons c [] (isOptLetter_ne hc (by decide)) rfl

theorem noQMark_eLine (t : List Char) (ht : noQMark t = true) :
    noQMark (eLine t) = true := by
  rw [eLine]
  refine noQMark_fixed_append expPat _ (by decide) ?_
  exact noQMark_cons ' ' t (by decide) ht

theorem noQMark_oLine (l : Char) (hl : isOptLetter l = true) (t : List Char)
    (ht : noQMark t = true) : noQMark (oLine l t) = true := by
  rw [show oLine l t = [l, '.', ' '] ++ t from by simp [oLine]]
  refine noQMark_fixed_append _ _ ?_ ht
  intro c hcm
  rcases List.mem_cons.mp hcm with hcm | hcm
  · subst hcm; exact isOptLetter_ne hl (by decide)
  · rcases List.mem_cons.mp hcm with hcm | hcm
    · subst hcm; decide
    · rcases List.mem_cons.mp hcm with hcm | hcm
      · subst hcm; decide
      · simp at hcm

theorem noQMark_blockTail (b : GenBlock) (h : cleanBlock b = true) :
    noQMark (blockTail b) = true := by
  obtain ⟨hnum, hne, hq, h1, h2, h3, h4, hans, he1, he2⟩ := cleanBlock_parts h
  rw [blockTail]
  have l7 : noQMark (eLine b.exp) = true := noQMark_eLine b.exp he2
  have l6 : noQMark (aLine b.ans ++ '\n' :: eLine b.exp) = true :=
    noQMark_append_nl _ _ (noQMark_aLine b.ans hans) (noQMark_cons '\n' _ (by decide) l7)
  have l5 : noQMark (oLine 'D' b.o4 ++ '\n' ::
      (aLine b.ans ++ '\n' :: eLine b.exp)) = true :=
    noQMark_append_nl _ _ (noQMark_oLine 'D' (by decide) b.o4 (cleanText_parts h4).2.1)
      (noQMark_cons '\n' _ (by decide) l6)
  have l4 : noQMark (oLine 'C' b.o3 ++ '\n' :: (oLine 'D' b.o4 ++ '\n' ::
      (aLine b.ans ++ '\n' :: eLine b.exp))) = true :=
    noQMark_append_nl _ _ (noQMark_oLine 'C' (by decide) b.o3 (cleanText_parts h3).2.1)
      (noQMark_cons '\n' _ (by decide) l5)
  have l3 : noQMark (oLine 'B' b.o2 ++ '\n' :: (oLine 'C' b.o3 ++ '\n' ::
      (oLine 'D' b.o4 ++ '\n' :: (aLine b.ans ++ '\n' :: eLine b.exp)))) = true :=
    noQMark_append_nl _ _ (noQMark_oLine 'B' (by decide) b.o2 (cleanText_parts h2).2.1)
      (noQMark_cons '\n' _ (by decide) l4)
  have l2 : noQMark (oLine 'A' b.o1 ++ '\n' :: (oLine 'B' b.o2 ++ '\n' ::
      (oLine 'C' b.o3 ++ '\n' :: (oLine 'D' b.o4 ++ '\n' ::
        (aLine b.ans ++ '\n' :: eLine b.exp))))) = true :=
    noQMark_append_nl _ _ (noQMark_oLine 'A' (by decide) b.o1 (cleanText_parts h1).2.1)
      (noQMark_cons '\n' _ (by decide) l3)
  refine noQMark_append_nl _ _ ?_ (noQMark_cons '\n' _ (by decide) l2)
  refine noQMark_fixed_append b.num _ (digits_ne_Q hnum) ?_
  refine noQMark_cons ':' _ (by decide) ?_
  exact noQMark_cons ' ' _ (by decide) (cleanText_parts hq).2.1

theorem splitGo_block (b : GenBlock) (bs : List GenBlock) (hb : cleanBlock b = true)
    (hbs : ∀ b' ∈ bs, cleanBlock b' = true) :
    splitGo ['Q'] (blockTail b ++ sepTail bs) = withSeps (b :: bs) := by
  induction bs generalizing b with
  | nil =>
    rw [sepTail, List.append_nil]
    have hnq := noQMark_blockTail b hb
    have h := splitGo_append (blockTail b) ['Q'] [] fun i => by
      rw [List.append_nil]
      exact noQMark_drop _ hnq i
    rw [List.append_nil] at h
    rw [h, splitGo, withSeps]
    rw [List.reverse_append, List.reverse_reverse, renderBlock_eq]
    rfl
  | cons b' bs' ih =>
    rw [sepTail]
    have hnq := noQMark_blockTail b hb
    have harp : ∀ i,
        qMarkAt ((blockTail b).drop i ++ '\n' :: renderBlocks (b' :: bs')) = false := by
      intro i
      rw [qMarkAt_append_nl]
      exact noQMark_drop _ hnq i
    rw [splitGo_append (blockTail b) ['Q'] _ harp]
    have hr : renderBlocks (b' :: bs') = 'Q' :: (blockTail b' ++ sepTail bs') := by
      rw [renderBlocks_cons, renderBlock_eq, List.cons_append]
    have hcond := qMarkAt_renderBlock_append b' (sepTail bs')
      (cleanBlock_parts (hbs b' (by simp))).1 (cleanBlock_parts (hbs b' (by simp))).2.1
    rw [renderBlock_eq, List.cons_append] at hcond
    rw [hr, splitGo_step_nl _ 'Q' _ hcond]
    rw [ih b' (hbs b' (by simp)) fun x hx => hbs x (by simp [hx])]
    rw [List.reverse_append, List.reverse_reverse]
    rw [show withSeps (b :: b' :: bs') =
      renderBlock b :: [] :: withSeps (b' :: bs') from rfl]
    rw [renderBlock_eq]
    rfl

theorem splitBlocks_render (bs : List GenBlock) (h : ∀ b ∈ bs, cleanBlock b = true) :
    splitBlocks (renderBlocks bs) = [] :: withSeps bs := by
  cases bs with
  | nil => rfl
  | cons b bs' =>
    rw [splitBlocks, renderBlocks_cons, renderBlock_eq, List.cons_append]
    have hcond := qMarkAt_renderBlock_append b (sepTail bs')
      (cleanBlock_parts (h b (by simp))).1 (cleanBlock_parts (h b (by simp))).2.1
    rw [renderBlock_eq, List.cons_append] at hcond
    rw [splitGo_step_mark [] 'Q' _ (by simp) hcond]
    rw [splitGo_block b bs' (h b (by simp)) fun x hx => h x (by simp [hx])]
    rfl

theorem parse_withSeps (bs : List GenBlock) (h : ∀ b ∈ bs, cleanBlock b = true) :
    (withSeps bs).filterMap parseBlock = bs.map expectedMCQ := by
  induction bs with
  | nil => rfl
  | cons b bs' ih =>
    cases bs' with
    | nil =>
      rw [withSeps, List.filterMap_cons, parseBlock_render b (h b (by simp))]
      rfl
    | cons b'' bs'' =>
      rw [show withSeps (b :: b'' :: bs'') =
        renderBlock b :: [] :: withSeps (b'' :: bs'') from rfl]
      rw [List.filterMap_cons, parseBlock_render b (h b (by simp))]
      rw [List.filterMap_cons]
      rw [show parseBlock ([] : List Char) = none from rfl]
      rw [ih fun x hx => h x (by simp [hx]), List.map_cons]
      rfl

/-- C3: a model output consisting of N well-formed blocks (question line,
four option lines A-D, answer letter, explanation) parses to exactly N
question records, in the order the blocks occur in the text. -/
theorem claim_C3 (bs : List GenBlock) (h : ∀ b ∈ bs, cleanBlock b = true) :
    parse_mcqs (renderBlocks bs) = bs.map expectedMCQ ∧
    (parse_mcqs (renderBlocks bs)).length = bs.length := by
  have hmain : parse_mcqs (renderBlocks bs) = bs.map expectedMCQ := by
    rw [parse_mcqs, splitBlocks_render bs h, List.filterMap_cons]
    rw [show parseBlock ([] : List Char) = none from rfl]
    exact parse_withSeps bs h
  exact ⟨hmain, by rw [hmain, List.length_map]⟩

/-- Witness for C3: a concrete two-block output parses to its two records
in order. -/
theorem claim_C3_witness :
    parse_mcqs (renderBlocks blocksEx) = blocksEx.map expectedMCQ ∧
    (parse_mcqs (renderBlocks blocksEx)).length = blocksEx.length :=
  claim_C3 blocksEx (by decide)

end QuizApp
